import Mathlib

/-!
Verification of the libuv timer core: the intrusive binary min-heap of
src/heap-inl.h and the timer subsystem of src/timer.c, shallowly embedded
as functional programs over explicit state.

The C heap links nodes by parent/left/right pointers; the set of linked
nodes always forms one binary tree rooted at the heap's min pointer.  We
embed that pointer structure as an inductive binary tree whose nodes carry
the payload that the C code reaches through container_of: a node's identity
is its position in the tree, a NULL pointer is the empty tree.  The bit-path
arithmetic of heap_insert and heap_remove is translated literally.
-/

/-- A heap node of heap-inl.h, seen from the root: NULL is `leaf`, a node
with its left and right subtrees is `node` (the parent back-pointers are
implicit in the tree structure and are checked through the shape of the
operations). -/
inductive HTree (α : Type) where
  | leaf : HTree α
  | node : α → HTree α → HTree α → HTree α
deriving DecidableEq

/-- The struct heap of heap-inl.h: the min pointer (root tree) and nelts. -/
structure Heap (α : Type) where
  root : HTree α
  nelts : Nat
deriving DecidableEq

/-- A timer handle, struct uv_timer_t of timer.c: callback (an abstract id,
none for NULL), absolute timeout, repeat interval (C field name `repeat`,
which is a Lean keyword, hence the trailing underscore), start_id, plus the
two handle-level flags read by timer.c through uv-common macros. -/
structure uv_timer_t where
  timer_cb : Option Nat
  timeout : Nat
  repeat_ : Nat
  start_id : Nat
  active : Bool
  closing : Bool
deriving DecidableEq

/-- Number of nodes linked into the tree. -/
def HTree.size {α : Type} : HTree α → Nat
  | HTree.leaf => 0
  | HTree.node _ l r => HTree.size l + HTree.size r + 1

/-- The value stored at the root node, none for the empty tree. -/
def HTree.rootVal {α : Type} : HTree α → Option α
  | HTree.leaf => none
  | HTree.node v _ _ => some v

/-- Erase the payloads, keeping the linking structure only. -/
def HTree.shape {α : Type} : HTree α → HTree Unit
  | HTree.leaf => HTree.leaf
  | HTree.node _ l r => HTree.node () (HTree.shape l) (HTree.shape r)

/-- The multiset of payloads linked into the tree. -/
def HTree.mset {α : Type} : HTree α → Multiset α
  | HTree.leaf => 0
  | HTree.node v l r => v ::ₘ (HTree.mset l + HTree.mset r)

/-- The path loop shared by heap_insert and heap_remove:
`for (k = 0, n = ...; n >= 2; k += 1, n /= 2) path = (path << 1) | (n & 1);`
embedded with explicit fuel (the loop halves n, so fuel n suffices).
Returns the final (path, k). -/
def pathLoopAux : Nat → Nat → Nat → Nat → Nat × Nat
  | 0, path, _, k => (path, k)
  | fuel + 1, path, n, k =>
    if 2 ≤ n then pathLoopAux fuel (2 * path + n % 2) (n / 2) (k + 1) else (path, k)

/-- The (path, k) pair the C loop computes from its starting value n
(n = 1 + nelts for heap_insert, n = nelts for heap_remove). -/
def heap_path (n : Nat) : Nat × Nat := pathLoopAux n 0 n 0

/-- The traversal of heap_insert and heap_remove consumes the k low bits of
path, low bit first; 0 descends left, 1 descends right.  This decodes them
into the list of left/right choices in traversal order. -/
def decodePath : Nat → Nat → List Bool
  | _, 0 => []
  | path, k + 1 => decide (path % 2 = 1) :: decodePath (path / 2) k

/-- Reference form of the same path: the binary digits of n below its
leading 1 bit, most significant first, as produced by recursion on n / 2
(fuel-cushioned so it computes by kernel reduction). -/
def pathOfIdxAux : Nat → Nat → List Bool
  | 0, _ => []
  | fuel + 1, n =>
    if 2 ≤ n then pathOfIdxAux fuel (n / 2) ++ [decide (n % 2 = 1)] else []

/-- Root-to-slot path of heap slot number n in the breadth-first numbering
in which the root is slot 1 and slot i has children 2i and 2i+1. -/
def pathOfIdx (n : Nat) : List Bool := pathOfIdxAux n n

/-- Follow a left/right path from the root; none if a NULL link is crossed. -/
def navigate {α : Type} : HTree α → List Bool → Option (HTree α)
  | t, [] => some t
  | HTree.leaf, _ :: _ => none
  | HTree.node _ l r, b :: bs => navigate (if b then r else l) bs

/-- Whether the slot at breadth-first index i holds a node. -/
def occupied {α : Type} (t : HTree α) (i : Nat) : Bool :=
  match navigate t (pathOfIdx i) with
  | some (HTree.node _ _ _) => true
  | _ => false

/-- The slot update of heap_insert: walk the path, then store the new node
(whose left/right were just cleared to NULL) in the final slot
(`*child = newnode`).  Walking across a NULL link is undefined behaviour in
the C code and leaves the tree unchanged here; it never happens on a heap
that satisfies the shape invariant. -/
def insertAt {α : Type} (x : α) : List Bool → HTree α → HTree α
  | [], _ => HTree.node x HTree.leaf HTree.leaf
  | _ :: _, HTree.leaf => HTree.leaf
  | b :: bs, HTree.node v l r =>
    if b then HTree.node v l (insertAt x bs r) else HTree.node v (insertAt x bs l) r

/-- The slot clearing of heap_remove (`child = *max; *max = NULL;`): walk
the path, unlink the node found there and return it.  none if the walk
crosses a NULL link (undefined behaviour in C, never reached under the
shape invariant). -/
def unlinkAt {α : Type} : List Bool → HTree α → HTree α × Option α
  | [], HTree.leaf => (HTree.leaf, none)
  | [], HTree.node v _ _ => (HTree.leaf, some v)
  | _ :: _, HTree.leaf => (HTree.leaf, none)
  | b :: bs, HTree.node v l r =>
    if b then
      let p := unlinkAt bs r
      (HTree.node v l p.1, p.2)
    else
      let p := unlinkAt bs l
      (HTree.node v p.1 r, p.2)

/-- The splice of heap_remove: the unlinked last node takes over the removed
node's relations (child->left = node->left; ... heap->min / parent fixups),
which in the tree view replaces the payload at the removed node's position,
keeping both subtrees.  Unchanged on an invalid path. -/
def replaceAt {α : Type} (x : α) : List Bool → HTree α → HTree α
  | [], HTree.leaf => HTree.leaf
  | [], HTree.node _ l r => HTree.node x l r
  | _ :: _, HTree.leaf => HTree.leaf
  | b :: bs, HTree.node v l r =>
    if b then HTree.node v l (replaceAt x bs r) else HTree.node v (replaceAt x bs l) r

/-- The sift-up loop shared by heap_insert and the tail of heap_remove:
`while (node->parent != NULL && less_than(node, node->parent))
   heap_node_swap(heap, node->parent, node);`
The path locates the node being walked up; the recursion processes the
deepest swap first, exactly matching the loop, and the Bool records whether
the walked node is still the root of the returned subtree (i.e. the loop is
still running when control returns to this level).  Each swap is
heap_node_swap specialised to a parent and one of its children: the child
takes the parent's place, the parent becomes its child on the same side, the
sibling and both subtrees are reattached. -/
def siftUp {α : Type} (lt : α → α → Bool) : List Bool → HTree α → HTree α × Bool
  | [], t => (t, true)
  | _ :: _, HTree.leaf => (HTree.leaf, false)
  | b :: bs, HTree.node v l r =>
    if b then
      match siftUp lt bs r with
      | (HTree.leaf, _) => (HTree.node v l HTree.leaf, false)
      | (HTree.node rv rl rr, moving) =>
        if moving && lt rv v then (HTree.node rv l (HTree.node v rl rr), true)
        else (HTree.node v l (HTree.node rv rl rr), false)
    else
      match siftUp lt bs l with
      | (HTree.leaf, _) => (HTree.node v HTree.leaf r, false)
      | (HTree.node lv ll lr, moving) =>
        if moving && lt lv v then (HTree.node lv (HTree.node v ll lr) r, true)
        else (HTree.node v (HTree.node lv ll lr) r, false)

/-- The sift-down loop of heap_remove, started at the node the last element
was spliced into: pick smallest among the node and its present children
(left compared first, then right against the current smallest, as in the C
code), stop if the node is smallest, otherwise heap_node_swap with that
child and continue there.  Fuel-cushioned (the walk descends, so fuel =
size of the subtree suffices); returns the relative path the node descended
along. -/
def siftDownRoot {α : Type} (lt : α → α → Bool) : Nat → HTree α → HTree α × List Bool
  | 0, t => (t, [])
  | _ + 1, HTree.leaf => (HTree.leaf, [])
  | fuel + 1, HTree.node v l r =>
    match l, r with
    | HTree.node lv ll lr, HTree.node rv rl rr =>
      if lt lv v then
        if lt rv lv then
          let p := siftDownRoot lt fuel (HTree.node v rl rr)
          (HTree.node rv (HTree.node lv ll lr) p.1, true :: p.2)
        else
          let p := siftDownRoot lt fuel (HTree.node v ll lr)
          (HTree.node lv p.1 (HTree.node rv rl rr), false :: p.2)
      else
        if lt rv v then
          let p := siftDownRoot lt fuel (HTree.node v rl rr)
          (HTree.node rv (HTree.node lv ll lr) p.1, true :: p.2)
        else (HTree.node v l r, [])
    | HTree.node lv ll lr, HTree.leaf =>
      if lt lv v then
        let p := siftDownRoot lt fuel (HTree.node v ll lr)
        (HTree.node lv p.1 HTree.leaf, false :: p.2)
      else (HTree.node v l r, [])
    | HTree.leaf, HTree.node rv rl rr =>
      if lt rv v then
        let p := siftDownRoot lt fuel (HTree.node v rl rr)
        (HTree.node rv HTree.leaf p.1, true :: p.2)
      else (HTree.node v l r, [])
    | HTree.leaf, HTree.leaf => (HTree.node v l r, [])

/-- Run the sift-down loop at the node reached by the given path, returning
the updated tree and the absolute path of the walked node's final position
(where heap_remove then starts its sift-up). -/
def siftDownAt {α : Type} (lt : α → α → Bool) : List Bool → HTree α → HTree α × List Bool
  | [], t =>
    let p := siftDownRoot lt (HTree.size t) t
    (p.1, p.2)
  | b :: bs, HTree.leaf => (HTree.leaf, b :: bs)
  | b :: bs, HTree.node v l r =>
    if b then
      let p := siftDownAt lt bs r
      (HTree.node v l p.1, true :: p.2)
    else
      let p := siftDownAt lt bs l
      (HTree.node v p.1 r, false :: p.2)

/-- heap_init of heap-inl.h: min = NULL, nelts = 0. -/
def heap_init {α : Type} : Heap α := { root := HTree.leaf, nelts := 0 }

/-- heap_min of heap-inl.h: return the min pointer (the root's payload). -/
def heap_min {α : Type} (heap : Heap α) : Option α := HTree.rootVal heap.root

/-- heap_insert of heap-inl.h: clear the new node's relations, compute the
path to the left-most free slot of the bottom row from 1 + nelts, insert
there, bump nelts, then sift the new node up. -/
def heap_insert {α : Type} (lt : α → α → Bool) (heap : Heap α) (newnode : α) : Heap α :=
  let pk := heap_path (1 + heap.nelts)
  let bs := decodePath pk.1 pk.2
  let t1 := insertAt newnode bs heap.root
  { root := (siftUp lt bs t1).1, nelts := heap.nelts + 1 }

/-- heap_remove of heap-inl.h.  The node to remove is identified by its
position in the tree (the C code identifies it by its address; positions
are the addresses of this embedding).  No-op on an empty heap; otherwise
unlink the tree's last node (path computed from nelts), decrement nelts,
and unless that last node was the node being removed, splice it into the
removed node's position and repair with a sift-down followed by a sift-up.
The `none` fallback guards the undefined behaviour of removing through an
invalid path; under the shape invariant the unlink always yields a node. -/
def heap_remove {α : Type} (lt : α → α → Bool) (heap : Heap α) (pos : List Bool) : Heap α :=
  if heap.nelts = 0 then heap
  else
    let pk := heap_path heap.nelts
    let bs := decodePath pk.1 pk.2
    let u := unlinkAt bs heap.root
    if pos = bs then { root := u.1, nelts := heap.nelts - 1 }
    else
      match u.2 with
      | none => { root := u.1, nelts := heap.nelts - 1 }
      | some child =>
        let t2 := replaceAt child pos u.1
        let d := siftDownAt lt pos t2
        { root := (siftUp lt d.2 d.1).1, nelts := heap.nelts - 1 }

/-- heap_dequeue of heap-inl.h: remove the min node (position = root). -/
def heap_dequeue {α : Type} (lt : α → α → Bool) (heap : Heap α) : Heap α :=
  heap_remove lt heap []

/-- Position of the node holding x, if any (left subtree searched first).
This recovers the position (the embedding's node address) from the payload;
callers of the timer layer keep payloads (timer ids) distinct, so the
position is unique there. -/
def findPos {α : Type} [DecidableEq α] (x : α) : HTree α → Option (List Bool)
  | HTree.leaf => none
  | HTree.node v l r =>
    if v = x then some []
    else
      match findPos x l with
      | some bs => some (false :: bs)
      | none =>
        match findPos x r with
        | some bs => some (true :: bs)
        | none => none

/-- The per-loop state timer.c reads through uv_loop_t: the timer heap
(holding timer ids), the timer_counter that stamps start_id, and the loop's
monotonic time.  All uint64 loop fields are Nats kept below 2^64 by the
operations. -/
structure uv_loop_t where
  timer_heap : Heap Nat
  timer_counter : Nat
  time : Nat
deriving DecidableEq

/-- Full mutable state of the timer subsystem: the loop plus the storage of
all timer handles, addressed by timer id (the embedding's handle address). -/
structure LoopState where
  loop : uv_loop_t
  timers : Nat → uv_timer_t

/-- Overwrite one handle in the handle storage. -/
def setTimer (st : LoopState) (id : Nat) (t : uv_timer_t) : LoopState :=
  { st with timers := fun i => if i = id then t else st.timers i }

/-- Modelled from the spec: uv__is_closing of uv-common.h (not under src/)
reads the closing flag set by the generic handle-teardown path; start
"fails if the handle is already being torn down". -/
def uv__is_closing (h : uv_timer_t) : Bool := h.closing

/-- Modelled from the spec: uv__is_active of uv-common.h (not under src/)
reads the active flag, the "current heap membership" marker. -/
def uv__is_active (h : uv_timer_t) : Bool := h.active

/-- Modelled from the spec: uv__handle_start of uv-common.h marks the
handle active. -/
def uv__handle_start (h : uv_timer_t) : uv_timer_t := { h with active := true }

/-- Modelled from the spec: uv__handle_stop of uv-common.h marks the handle
inactive. -/
def uv__handle_stop (h : uv_timer_t) : uv_timer_t := { h with active := false }

/-- The libuv invalid-argument error code (UV_EINVAL = -EINVAL). -/
def UV_EINVAL : Int := -22

/-- (uint64_t) -1, the clamp target for overflowing deadlines. -/
def UINT64_MAX : Nat := 2 ^ 64 - 1

/-- limits.h INT_MAX for the 32-bit int of the reference platforms. -/
def INT_MAX : Int := 2147483647

/-- timer_less_than of timer.c: a->timeout < b->timeout first, then
start_id as the tie-break. -/
def timer_less_than (a b : uv_timer_t) : Bool :=
  if a.timeout < b.timeout then true
  else if b.timeout < a.timeout then false
  else decide (a.start_id < b.start_id)

/-- The comparator passed to the heap operations: timer_less_than lifted to
timer ids through the current handle storage (the C function follows the
heap_node pointers into the enclosing handles with container_of). -/
def timerLT (timers : Nat → uv_timer_t) (x y : Nat) : Bool :=
  timer_less_than (timers x) (timers y)

/-- uv_timer_init of timer.c: cleared callback, timeout and repeat; the
handle starts inactive and not closing (uv__handle_init). -/
def uv_timer_init : uv_timer_t :=
  { timer_cb := none, timeout := 0, repeat_ := 0, start_id := 0,
    active := false, closing := false }

/-- uv_timer_stop of timer.c: success and no mutation if the handle is not
active; otherwise heap_remove the handle's node (located by its position in
the tree) and mark the handle stopped. -/
def uv_timer_stop (st : LoopState) (handle : Nat) : Int × LoopState :=
  if ¬ uv__is_active (st.timers handle) then (0, st)
  else
    let pos := (findPos handle st.loop.timer_heap.root).getD []
    let heap1 := heap_remove (timerLT st.timers) st.loop.timer_heap pos
    let st1 := { st with loop := { st.loop with timer_heap := heap1 } }
    (0, setTimer st1 handle (uv__handle_stop (st1.timers handle)))

/-- uv_timer_start of timer.c: UV_EINVAL (no mutation) when closing or the
callback is NULL; implicit stop when active; deadline = loop time + timeout
in wrapping uint64 arithmetic, clamped to UINT64_MAX when the sum wrapped
below timeout; assign callback, timeout, repeat and a fresh start_id from
the post-incremented timer_counter; heap_insert with timer_less_than; mark
the handle started. -/
def uv_timer_start (st : LoopState) (handle : Nat) (cb : Option Nat)
    (timeout repeat_ : Nat) : Int × LoopState :=
  if uv__is_closing (st.timers handle) || cb.isNone then (UV_EINVAL, st)
  else
    let st0 := if uv__is_active (st.timers handle) then (uv_timer_stop st handle).2 else st
    let sum := (st0.loop.time + timeout) % 2 ^ 64
    let clamped_timeout := if sum < timeout then UINT64_MAX else sum
    let st1 := setTimer st0 handle
      { st0.timers handle with
        timer_cb := cb, timeout := clamped_timeout, repeat_ := repeat_,
        start_id := st0.loop.timer_counter }
    let st2 := { st1 with loop :=
      { st1.loop with timer_counter := (st1.loop.timer_counter + 1) % 2 ^ 64 } }
    let heap1 := heap_insert (timerLT st2.timers) st2.loop.timer_heap handle
    let st3 := { st2 with loop := { st2.loop with timer_heap := heap1 } }
    (0, setTimer st3 handle (uv__handle_start (st3.timers handle)))

/-- uv_timer_again of timer.c: UV_EINVAL (no mutation) when the handle has
no callback; when repeat is nonzero, stop then restart with
timeout = repeat, repeat = repeat (the restart's own result is ignored);
success otherwise. -/
def uv_timer_again (st : LoopState) (handle : Nat) : Int × LoopState :=
  match (st.timers handle).timer_cb with
  | none => (UV_EINVAL, st)
  | some cb =>
    if (st.timers handle).repeat_ ≠ 0 then
      let st1 := (uv_timer_stop st handle).2
      let st2 := (uv_timer_start st1 handle (some cb)
        ((st1.timers handle).repeat_) ((st1.timers handle).repeat_)).2
      (0, st2)
    else (0, st)

/-- uv_timer_set_repeat of timer.c: plain store of the repeat field. -/
def uv_timer_set_repeat (st : LoopState) (handle : Nat) (repeat_ : Nat) : LoopState :=
  setTimer st handle { st.timers handle with repeat_ := repeat_ }

/-- uv_timer_get_repeat of timer.c. -/
def uv_timer_get_repeat (st : LoopState) (handle : Nat) : Nat :=
  (st.timers handle).repeat_

/-- uv_timer_get_due_in of timer.c: 0 when already due, else the remaining
delay. -/
def uv_timer_get_due_in (st : LoopState) (handle : Nat) : Nat :=
  if (st.timers handle).timeout ≤ st.loop.time then 0
  else (st.timers handle).timeout - st.loop.time

/-- uv__next_timeout of timer.c: -1 (block indefinitely) on an empty heap,
0 when the min timer is already due, else the remaining delay clamped to
INT_MAX. -/
def uv__next_timeout (st : LoopState) : Int :=
  match heap_min st.loop.timer_heap with
  | none => -1
  | some id =>
    if (st.timers id).timeout ≤ st.loop.time then 0
    else
      let diff : Int := Int.ofNat ((st.timers id).timeout - st.loop.time)
      if diff > INT_MAX then INT_MAX else diff

/-- uv__run_timers of timer.c, with fuel for the unbounded C loop (any fuel
at least 1 + the number of due timers reaches the loop's own exit).  Each
iteration re-reads the heap min, stops when it is absent or not yet due,
and otherwise stops the due handle, calls uv_timer_again on it, and only
then invokes its callback; the invoked callbacks are returned in invocation
order (the callbacks themselves are opaque user code and mutate nothing
here). -/
def uv__run_timers : Nat → LoopState → LoopState × List Nat
  | 0, st => (st, [])
  | fuel + 1, st =>
    match heap_min st.loop.timer_heap with
    | none => (st, [])
    | some id =>
      if st.loop.time < (st.timers id).timeout then (st, [])
      else
        let st1 := (uv_timer_stop st id).2
        let st2 := (uv_timer_again st1 id).2
        let rec_ := uv__run_timers fuel st2
        (rec_.1, id :: rec_.2)

/-- uv__timer_close of timer.c: stop the handle. -/
def uv__timer_close (st : LoopState) (handle : Nat) : LoopState :=
  (uv_timer_stop st handle).2

/-- Advance the loop's cached monotonic time (uv_update_time, an external
collaborator owned by the loop core). -/
def setLoopTime (st : LoopState) (t : Nat) : LoopState :=
  { st with loop := { st.loop with time := t } }

/-!
Specification-side definitions: the predicates the theorems are stated
with, and helper operations used only in proofs.
-/

/-- Replace the whole subtree sitting at the end of the path (unchanged if
the path crosses a NULL link).  insertAt and the unlink step of heap_remove
are both instances of this. -/
def setSub {α : Type} (s : HTree α) : List Bool → HTree α → HTree α
  | [], _ => s
  | _ :: _, HTree.leaf => HTree.leaf
  | b :: bs, HTree.node v l r =>
    if b then HTree.node v l (setSub s bs r) else HTree.node v (setSub s bs l) r

/-- Apply a transformation to the subtree sitting at the end of the path. -/
def mapSub {α : Type} (f : HTree α → HTree α) : List Bool → HTree α → HTree α
  | [], t => f t
  | _ :: _, HTree.leaf => HTree.leaf
  | b :: bs, HTree.node v l r =>
    if b then HTree.node v l (mapSub f bs r) else HTree.node v (mapSub f bs l) r

/-- One heap-order edge: the child subtree's root (if present) does not
sort strictly before v. -/
def rootLe {α : Type} (lt : α → α → Bool) (v : α) : HTree α → Bool
  | HTree.leaf => true
  | HTree.node c _ _ => ! lt c v

/-- The min-heap order invariant of heap-inl.h: along every parent/child
link the child does not sort strictly before the parent. -/
def heapOrdered {α : Type} (lt : α → α → Bool) : HTree α → Bool
  | HTree.leaf => true
  | HTree.node v l r =>
    rootLe lt v l && rootLe lt v r && heapOrdered lt l && heapOrdered lt r

/-- The canonical shape of the complete binary tree with n nodes, built by
inserting along the bit path of each successive slot — the shape heap_insert
itself maintains. -/
def cshape : Nat → HTree Unit
  | 0 => HTree.leaf
  | n + 1 => insertAt () (pathOfIdx (n + 1)) (cshape n)

/-- A comparator is a strict weak order: irreflexive, transitive, and
cotransitive (a < c implies a < b or b < c).  This is the contract
heap-inl.h states for less_than. -/
structure IsSWO {α : Type} (lt : α → α → Bool) : Prop where
  irrefl : ∀ a, lt a a = false
  trans : ∀ a b c, lt a b = true → lt b c = true → lt a c = true
  cotrans : ∀ a b c, lt a c = true → lt a b = true ∨ lt b c = true

/-- The heap invariant: the linked nodes form the complete binary tree of
nelts nodes, and every link is heap-ordered. -/
def heapInv {α : Type} (lt : α → α → Bool) (h : Heap α) : Prop :=
  HTree.shape h.root = cshape h.nelts ∧ heapOrdered lt h.root = true

/-- One public heap operation: insert a payload, or remove the node at a
position. -/
inductive HeapOp (α : Type) where
  | insert (x : α)
  | remove (pos : List Bool)

/-- Run one heap operation. -/
def applyOp {α : Type} (lt : α → α → Bool) (h : Heap α) : HeapOp α → Heap α
  | HeapOp.insert x => heap_insert lt h x
  | HeapOp.remove pos => heap_remove lt h pos

/-- Run a sequence of heap operations from the freshly initialised heap. -/
def runOps {α : Type} (lt : α → α → Bool) (ops : List (HeapOp α)) : Heap α :=
  ops.foldl (applyOp lt) heap_init

/-- A subtree is heap-ordered and its root does not sort before the parent
value po it hangs under (none at the heap root). -/
def orderedTop {α : Type} (lt : α → α → Bool) (po : Option α) (t : HTree α) : Prop :=
  heapOrdered lt t = true ∧
    ∀ c pv, HTree.rootVal t = some c → po = some pv → lt c pv = false

/-- The state the sift-up loop maintains for the walked node x at the root
of the current subtree: both subtrees are heap-ordered and their roots sort
neither before x nor before x's parent po (the bridge that lets a swap of x
with its parent keep the tree ordered). -/
def liftOkBase {α : Type} (lt : α → α → Bool) (x : α) (po : Option α) (t : HTree α) : Prop :=
  ∃ l r, t = HTree.node x l r ∧ heapOrdered lt l = true ∧ heapOrdered lt r = true ∧
    ∀ c, (HTree.rootVal l = some c ∨ HTree.rootVal r = some c) →
      lt c x = false ∧ ∀ pv, po = some pv → lt c pv = false

/-- Everything on the path down to a distinguished subtree is intact: each
node on the path is ordered against its parent, the subtree hanging off the
path is fully ordered, and the subtree at the end satisfies P under its
parent value. -/
def spineOk {α : Type} (lt : α → α → Bool) (P : Option α → HTree α → Prop) :
    List Bool → Option α → HTree α → Prop
  | [], po, t => P po t
  | b :: bs, po, t =>
    ∃ v l r, t = HTree.node v l r ∧ (∀ pv, po = some pv → lt v pv = false) ∧
      (if b then spineOk lt P bs (some v) r ∧ heapOrdered lt l = true ∧ rootLe lt v l = true
       else spineOk lt P bs (some v) l ∧ heapOrdered lt r = true ∧ rootLe lt v r = true)

/-- The timer-layer invariant tying timer.c's handle flags to the heap: the
heap satisfies its invariant under timer_less_than, ids in the heap are
distinct, and a handle is marked active exactly when its id is enqueued;
enqueued handles were started, so they carry a callback and are not mid
teardown. -/
def TInv (st : LoopState) : Prop :=
  heapInv (timerLT st.timers) st.loop.timer_heap ∧
  (HTree.mset st.loop.timer_heap.root).Nodup ∧
  (∀ id, (st.timers id).active = true ↔ id ∈ HTree.mset st.loop.timer_heap.root) ∧
  (∀ id, id ∈ HTree.mset st.loop.timer_heap.root →
    (st.timers id).timer_cb ≠ none ∧ (st.timers id).closing = false)

/-- A freshly initialised loop: empty timer heap, counter and time at 0,
every handle slot holding an initialised (never started) timer. -/
def initLoopState : LoopState :=
  { loop := { timer_heap := heap_init, timer_counter := 0, time := 0 },
    timers := fun _ => uv_timer_init }

/-- The spec's ordering scenario: four timers started (in handle order
0, 1, 2, 3) with timeouts 10, 10, 5 and 20 at loop time 0, then the loop
clock advanced to 20 so that all four are due. -/
def scenarioC2 : LoopState :=
  let s1 := (uv_timer_start initLoopState 0 (some 100) 10 0).2
  let s2 := (uv_timer_start s1 1 (some 101) 10 0).2
  let s3 := (uv_timer_start s2 2 (some 102) 5 0).2
  let s4 := (uv_timer_start s3 3 (some 103) 20 0).2
  setLoopTime s4 20

/-- A loop state with one handle (id 0) that was started (it has a
callback and a nonzero repeat) and then had uv_close initiated on it:
uv__timer_close stopped it (inactive, out of the heap) and the teardown
marked it closing.  The state a repeating timer is in when user code calls
uv_timer_again between uv_close and the close callback. -/
def closingState : LoopState :=
  { loop := { timer_heap := heap_init, timer_counter := 5, time := 7 },
    timers := fun _ =>
      { timer_cb := some 1, timeout := 100, repeat_ := 50, start_id := 0,
        active := false, closing := true } }

/-- A one-element Nat heap holding 7, used to instantiate the heap claims
on concrete data. -/
def wheap : Heap Nat :=
  { root := HTree.node 7 HTree.leaf HTree.leaf, nelts := 1 }

/-!
## Lemmas: the bit-path arithmetic

The loop `for (k = 0, n = ...; n >= 2; k += 1, n /= 2)` pushes the low bits
of n; the traversals consume them low bit first, which reads the binary
digits of n below its leading 1, most significant first — the root-to-slot
path of slot n in breadth-first numbering.
-/

theorem pathOfIdxAux_irrel :
    ∀ f1 f2 n, n ≤ f1 → n ≤ f2 → pathOfIdxAux f1 n = pathOfIdxAux f2 n := by
  intro f1
  induction f1 with
  | zero =>
    intro f2 n h1 _
    have hn : n = 0 := Nat.le_zero.mp h1
    subst hn
    cases f2 <;> simp [pathOfIdxAux]
  | succ f ih =>
    intro f2 n h1 h2
    by_cases hn : 2 ≤ n
    · obtain ⟨f2', rfl⟩ : ∃ f2', f2 = f2' + 1 := ⟨f2 - 1, by omega⟩
      simp only [pathOfIdxAux, if_pos hn]
      rw [ih f2' (n / 2) (by omega) (by omega)]
    · cases f2 <;> simp [pathOfIdxAux, hn]

theorem pathOfIdx_small {n : Nat} (h : n < 2) : pathOfIdx n = [] := by
  interval_cases n <;> rfl

theorem pathOfIdx_step {n : Nat} (h : 2 ≤ n) :
    pathOfIdx n = pathOfIdx (n / 2) ++ [decide (n % 2 = 1)] := by
  obtain ⟨m, rfl⟩ : ∃ m, n = m + 1 := ⟨n - 1, by omega⟩
  show pathOfIdxAux (m + 1) (m + 1) = _
  simp only [pathOfIdxAux, if_pos h]
  rw [pathOfIdxAux_irrel m ((m + 1) / 2) ((m + 1) / 2) (by omega) (by omega)]
  rfl

theorem pathOfIdx_ne_nil {n : Nat} (h : 2 ≤ n) : pathOfIdx n ≠ [] := by
  rw [pathOfIdx_step h]
  simp

theorem pathLoopAux_spec :
    ∀ fuel n p k, n ≤ fuel →
      decodePath (pathLoopAux fuel p n k).1 (pathLoopAux fuel p n k).2 =
        pathOfIdx n ++ decodePath p k := by
  intro fuel
  induction fuel with
  | zero =>
    intro n p k h1
    have hn : n = 0 := Nat.le_zero.mp h1
    subst hn
    simp [pathLoopAux, pathOfIdx_small]
  | succ f ih =>
    intro n p k h1
    by_cases hn : 2 ≤ n
    · simp only [pathLoopAux, if_pos hn]
      rw [ih (n / 2) (2 * p + n % 2) (k + 1) (by omega)]
      have h2 : decodePath (2 * p + n % 2) (k + 1) =
          decide (n % 2 = 1) :: decodePath p k := by
        show decide ((2 * p + n % 2) % 2 = 1) :: decodePath ((2 * p + n % 2) / 2) k = _
        have e1 : (2 * p + n % 2) % 2 = n % 2 := by omega
        have e2 : (2 * p + n % 2) / 2 = p := by omega
        rw [e1, e2]
      rw [h2, pathOfIdx_step hn, List.append_assoc]
      rfl
    · simp only [pathLoopAux, if_neg hn]
      rw [pathOfIdx_small (by omega)]
      rfl

theorem heap_path_decode (n : Nat) :
    decodePath (heap_path n).1 (heap_path n).2 = pathOfIdx n := by
  have h := pathLoopAux_spec n n 0 0 le_rfl
  simpa [heap_path, decodePath] using h

theorem pathOfIdx_inj :
    ∀ i j, 1 ≤ i → 1 ≤ j → pathOfIdx i = pathOfIdx j → i = j := by
  intro i
  induction i using Nat.strong_induction_on with
  | _ i ih =>
    intro j hi hj h
    by_cases h2i : 2 ≤ i
    · by_cases h2j : 2 ≤ j
      · rw [pathOfIdx_step h2i, pathOfIdx_step h2j] at h
        have hd : pathOfIdx (i / 2) = pathOfIdx (j / 2) ∧
            decide (i % 2 = 1) = decide (j % 2 = 1) := by
          have h1 := congrArg List.dropLast h
          have h2 := congrArg List.getLast? h
          simp only [List.dropLast_concat, List.getLast?_concat] at h1 h2
          exact ⟨h1, by simpa using h2⟩
        have e1 : i / 2 = j / 2 :=
          ih (i / 2) (by omega) (j / 2) (by omega) (by omega) hd.1
        have e2 : i % 2 = j % 2 := by
          have := hd.2
          by_cases hm : i % 2 = 1 <;> by_cases hm' : j % 2 = 1 <;>
            simp [hm, hm'] at this ⊢ <;> omega
        omega
      · rw [pathOfIdx_small (show j < 2 by omega)] at h
        exact absurd h (pathOfIdx_ne_nil h2i)
    · by_cases h2j : 2 ≤ j
      · rw [pathOfIdx_small (show i < 2 by omega)] at h
        exact absurd h.symm (pathOfIdx_ne_nil h2j)
      · omega

theorem nav_append {α : Type} (p : List Bool) :
    ∀ (t : HTree α) (q : List Bool),
      navigate t (p ++ q) = (navigate t p).bind fun s => navigate s q := by
  induction p with
  | nil => intro t q; simp [navigate]
  | cons b bs ih =>
    intro t q
    cases t with
    | leaf => simp [navigate]
    | node v l r =>
      show navigate (if b then r else l) (bs ++ q) = _
      rw [ih]
      rfl

theorem nav_sub_node {α : Type} {t : HTree α} {q : List Bool} {b : Bool}
    {rest : List Bool} {s : HTree α} (h : navigate t (q ++ b :: rest) = some s) :
    ∃ v l r, navigate t q = some (HTree.node v l r) := by
  rw [nav_append] at h
  rcases hq : navigate t q with _ | u
  · rw [hq] at h
    simp at h
  · rw [hq] at h
    cases u with
    | leaf => simp [navigate] at h
    | node v l r => exact ⟨v, l, r, rfl⟩

theorem insertAt_eq_setSub {α : Type} (x : α) :
    ∀ (p : List Bool) (t : HTree α),
      insertAt x p t = setSub (HTree.node x HTree.leaf HTree.leaf) p t := by
  intro p
  induction p with
  | nil => intro t; rfl
  | cons b bs ih =>
    intro t
    cases t with
    | leaf => rfl
    | node v l r => cases b <;> simp [insertAt, setSub, ih]

theorem unlinkAt_fst {α : Type} :
    ∀ (p : List Bool) (t : HTree α), (unlinkAt p t).1 = setSub HTree.leaf p t := by
  intro p
  induction p with
  | nil => intro t; cases t <;> rfl
  | cons b bs ih =>
    intro t
    cases t with
    | leaf => rfl
    | node v l r => cases b <;> simp [unlinkAt, setSub, ih]

theorem unlinkAt_snd {α : Type} :
    ∀ (p : List Bool) (t u : HTree α), navigate t p = some u →
      (unlinkAt p t).2 = HTree.rootVal u := by
  intro p
  induction p with
  | nil =>
    intro t u h
    have ht : u = t := by simpa [navigate] using h.symm
    subst ht
    cases u <;> rfl
  | cons b bs ih =>
    intro t u h
    cases t with
    | leaf => simp [navigate] at h
    | node v l r =>
      have h' : navigate (if b then r else l) bs = some u := h
      cases b <;> simpa [unlinkAt] using ih _ _ (by simpa using h')

theorem nav_setSub_self {α : Type} :
    ∀ (p : List Bool) (t u : HTree α), navigate t p = some u →
      ∀ s : HTree α, navigate (setSub s p t) p = some s := by
  intro p
  induction p with
  | nil => intro t u _ s; cases t <;> simp [setSub, navigate]
  | cons b bs ih =>
    intro t u h s
    cases t with
    | leaf => simp [navigate] at h
    | node v l r =>
      have h' : navigate (if b then r else l) bs = some u := h
      cases b <;> simpa [setSub, navigate] using ih _ _ (by simpa using h') s

theorem setSub_of_nav {α : Type} :
    ∀ (p : List Bool) (t u : HTree α), navigate t p = some u → setSub u p t = t := by
  intro p
  induction p with
  | nil =>
    intro t u h
    have ht : u = t := by simpa [navigate] using h.symm
    subst ht
    cases u <;> rfl
  | cons b bs ih =>
    intro t u h
    cases t with
    | leaf => simp [navigate] at h
    | node v l r =>
      have h' : navigate (if b then r else l) bs = some u := h
      cases b <;> simp [setSub] <;> exact ih _ _ (by simpa using h')

theorem setSub_setSub {α : Type} :
    ∀ (p : List Bool) (s s' t : HTree α),
      setSub s' p (setSub s p t) = setSub s' p t := by
  intro p
  induction p with
  | nil => intro s s' t; rfl
  | cons b bs ih =>
    intro s s' t
    cases t with
    | leaf => rfl
    | node v l r => cases b <;> simp [setSub, ih]

theorem nav_setSub_prefix {α : Type} :
    ∀ (q : List Bool) (b : Bool) (rest : List Bool) (t s : HTree α) (v : α)
      (l r : HTree α), navigate t q = some (HTree.node v l r) →
      ∃ l' r', navigate (setSub s (q ++ b :: rest) t) q = some (HTree.node v l' r') := by
  intro q
  induction q with
  | nil =>
    intro b rest t s v l r h
    have : t = HTree.node v l r := by simpa [navigate] using h
    subst this
    cases b <;> exact ⟨_, _, rfl⟩
  | cons c cs ih =>
    intro b rest t s v l r h
    cases t with
    | leaf => simp [navigate] at h
    | node w wl wr =>
      have h' : navigate (if c then wr else wl) cs = some (HTree.node v l r) := h
      cases c
      · obtain ⟨l', r', hh⟩ := ih b rest wl s v l r (by simpa using h')
        exact ⟨l', r', by simpa [setSub, navigate] using hh⟩
      · obtain ⟨l', r', hh⟩ := ih b rest wr s v l r (by simpa using h')
        exact ⟨l', r', by simpa [setSub, navigate] using hh⟩

theorem nav_setSub_divergent {α : Type} :
    ∀ (pre : List Bool) (a b : Bool) (p' q' : List Bool) (t s : HTree α),
      a ≠ b →
      navigate (setSub s (pre ++ a :: p') t) (pre ++ b :: q') =
        navigate t (pre ++ b :: q') := by
  intro pre
  induction pre with
  | nil =>
    intro a b p' q' t s hab
    cases t with
    | leaf => rfl
    | node v l r =>
      cases a <;> cases b <;> first
        | exact absurd rfl hab
        | simp [setSub, navigate]
  | cons c cs ih =>
    intro a b p' q' t s hab
    cases t with
    | leaf => rfl
    | node v l r => cases c <;> simp [setSub, navigate] <;> exact ih a b p' q' _ s hab

theorem list_tricho :
    ∀ p q : List Bool, p <+: q ∨ q <+: p ∨
      ∃ pre a b p' q', a ≠ b ∧ p = pre ++ a :: p' ∧ q = pre ++ b :: q' := by
  intro p
  induction p with
  | nil => intro q; exact Or.inl List.nil_prefix
  | cons a p' ih =>
    intro q
    cases q with
    | nil => exact Or.inr (Or.inl List.nil_prefix)
    | cons b q' =>
      by_cases hab : a = b
      · subst hab
        rcases ih q' with h | h | ⟨pre, x, y, px, qx, hxy, hp, hq⟩
        · exact Or.inl (by simpa [List.cons_prefix_cons] using h)
        · exact Or.inr (Or.inl (by simpa [List.cons_prefix_cons] using h))
        · exact Or.inr (Or.inr ⟨a :: pre, x, y, px, qx, hxy, by simp [hp], by simp [hq]⟩)
      · exact Or.inr (Or.inr ⟨[], a, b, p', q', hab, rfl, rfl⟩)

theorem mset_setSub {α : Type} :
    ∀ (p : List Bool) (t u s : HTree α), navigate t p = some u →
      HTree.mset (setSub s p t) + HTree.mset u = HTree.mset t + HTree.mset s := by
  intro p
  induction p with
  | nil =>
    intro t u s h
    have ht : u = t := by simpa [navigate] using h.symm
    subst ht
    cases u <;> simp [setSub] <;> exact add_comm _ _
  | cons b bs ih =>
    intro t u s h
    cases t with
    | leaf => simp [navigate] at h
    | node v l r =>
      have h' : navigate (if b then r else l) bs = some u := h
      cases b
      · have := ih l u s (by simpa using h')
        simp only [setSub, if_neg Bool.false_ne_true, HTree.mset, Multiset.cons_add]
        rw [add_right_comm, this, add_right_comm]
      · have := ih r u s (by simpa using h')
        simp only [setSub, if_pos rfl, HTree.mset, Multiset.cons_add]
        rw [add_assoc, this, add_assoc]

theorem replace_mset {α : Type} :
    ∀ (p : List Bool) (t : HTree α) (w : α) (l r : HTree α) (x : α),
      navigate t p = some (HTree.node w l r) →
      w ::ₘ HTree.mset (replaceAt x p t) = x ::ₘ HTree.mset t := by
  intro p
  induction p with
  | nil =>
    intro t w l r x h
    have ht : t = HTree.node w l r := by simpa [navigate] using h
    subst ht
    simp [replaceAt, HTree.mset, Multiset.cons_swap]
  | cons b bs ih =>
    intro t w l r x h
    cases t with
    | leaf => simp [navigate] at h
    | node v tl tr =>
      have h' : navigate (if b then tr else tl) bs = some (HTree.node w l r) := h
      cases b
      · have := ih tl w l r x (by simpa using h')
        simp only [replaceAt, if_neg Bool.false_ne_true, HTree.mset]
        rw [Multiset.cons_swap w v, ← Multiset.cons_add, this,
          Multiset.cons_add, Multiset.cons_swap]
      · have := ih tr w l r x (by simpa using h')
        simp only [replaceAt, if_pos rfl, HTree.mset]
        rw [Multiset.cons_swap w v, ← Multiset.add_cons, this,
          Multiset.add_cons, Multiset.cons_swap]

theorem shape_setSub {α : Type} :
    ∀ (p : List Bool) (s t : HTree α),
      HTree.shape (setSub s p t) = setSub (HTree.shape s) p (HTree.shape t) := by
  intro p
  induction p with
  | nil => intro s t; cases t <;> rfl
  | cons b bs ih =>
    intro s t
    cases t with
    | leaf => rfl
    | node v l r => cases b <;> simp [setSub, HTree.shape, ih]

theorem nav_shape {α : Type} :
    ∀ (p : List Bool) (t : HTree α),
      navigate (HTree.shape t) p = (navigate t p).map HTree.shape := by
  intro p
  induction p with
  | nil => intro t; simp [navigate]
  | cons b bs ih =>
    intro t
    cases t with
    | leaf => rfl
    | node v l r =>
      show navigate (if b then HTree.shape r else HTree.shape l) bs = _
      cases b <;> simpa [navigate] using ih _

theorem shape_leaf_iff {α : Type} {t : HTree α} :
    HTree.shape t = HTree.leaf ↔ t = HTree.leaf := by
  cases t <;> simp [HTree.shape]

theorem shape_node_elim {α : Type} {t : HTree α} {sl sr : HTree Unit}
    (h : HTree.shape t = HTree.node () sl sr) :
    ∃ v l r, t = HTree.node v l r ∧ HTree.shape l = sl ∧ HTree.shape r = sr := by
  cases t with
  | leaf => simp [HTree.shape] at h
  | node v l r =>
    simp only [HTree.shape, HTree.node.injEq] at h
    exact ⟨v, l, r, rfl, h.2.1, h.2.2⟩

theorem shape_replace {α : Type} :
    ∀ (p : List Bool) (x : α) (t : HTree α),
      HTree.shape (replaceAt x p t) = HTree.shape t := by
  intro p
  induction p with
  | nil => intro x t; cases t <;> rfl
  | cons b bs ih =>
    intro x t
    cases t with
    | leaf => rfl
    | node v l r => cases b <;> simp [replaceAt, HTree.shape, ih]

theorem mset_card {α : Type} : ∀ t : HTree α, (HTree.mset t).card = t.size := by
  intro t
  induction t with
  | leaf => rfl
  | node v l r ihl ihr => simp [HTree.mset, HTree.size, ihl, ihr]

theorem size_shape {α : Type} : ∀ t : HTree α, (HTree.shape t).size = t.size := by
  intro t
  induction t with
  | leaf => rfl
  | node v l r ihl ihr => simp [HTree.shape, HTree.size, ihl, ihr]

/-!
## Lemmas: heap order under a strict weak order
-/

theorem rootLe_iff {α : Type} {lt : α → α → Bool} {v : α} {t : HTree α} :
    rootLe lt v t = true ↔ ∀ c, HTree.rootVal t = some c → lt c v = false := by
  cases t <;> simp [rootLe, HTree.rootVal]

theorem ordered_node_iff {α : Type} {lt : α → α → Bool} {v : α} {l r : HTree α} :
    heapOrdered lt (HTree.node v l r) = true ↔
      rootLe lt v l = true ∧ rootLe lt v r = true ∧
      heapOrdered lt l = true ∧ heapOrdered lt r = true := by
  simp [heapOrdered, Bool.and_eq_true, and_assoc]

theorem nav_ordered {α : Type} {lt : α → α → Bool} :
    ∀ (p : List Bool) (t s : HTree α), heapOrdered lt t = true →
      navigate t p = some s → heapOrdered lt s = true := by
  intro p
  induction p with
  | nil =>
    intro t s ht h
    have : s = t := by simpa [navigate] using h.symm
    subst this
    exact ht
  | cons b bs ih =>
    intro t s ht h
    cases t with
    | leaf => simp [navigate] at h
    | node v l r =>
      have h' : navigate (if b then r else l) bs = some s := h
      rcases ordered_node_iff.mp ht with ⟨_, _, hl, hr⟩
      cases b
      · exact ih l s hl (by simpa using h')
      · exact ih r s hr (by simpa using h')

theorem rootVal_setSub_leaf {α : Type} {b : Bool} {bs : List Bool} {t : HTree α} :
    HTree.rootVal (setSub (HTree.leaf : HTree α) (b :: bs) t) = HTree.rootVal t := by
  cases t with
  | leaf => rfl
  | node v l r => cases b <;> rfl

theorem setSub_leaf_ordered {α : Type} {lt : α → α → Bool} :
    ∀ (p : List Bool) (t : HTree α), heapOrdered lt t = true →
      heapOrdered lt (setSub (HTree.leaf : HTree α) p t) = true := by
  intro p
  induction p with
  | nil => intro t _; cases t <;> rfl
  | cons b bs ih =>
    intro t ht
    cases t with
    | leaf => exact ht
    | node v l r =>
      rcases ordered_node_iff.mp ht with ⟨hvl, hvr, hl, hr⟩
      cases b
      · refine ordered_node_iff.mpr ⟨?_, hvr, ih l hl, hr⟩
        rcases bs with _ | ⟨c, cs⟩
        · simp [setSub, rootLe]
        · rw [rootLe_iff] at hvl ⊢
          intro cc hcc
          exact hvl cc (by rwa [rootVal_setSub_leaf] at hcc)
      · refine ordered_node_iff.mpr ⟨hvl, ?_, hl, ih r hr⟩
        rcases bs with _ | ⟨c, cs⟩
        · simp [setSub, rootLe]
        · rw [rootLe_iff] at hvr ⊢
          intro cc hcc
          exact hvr cc (by rwa [rootVal_setSub_leaf] at hcc)

theorem IsSWO.asymm {α : Type} {lt : α → α → Bool} (h : IsSWO lt) {a b : α}
    (hab : lt a b = true) : lt b a = false := by
  by_contra hba
  have hba' : lt b a = true := by
    cases hv : lt b a
    · exact absurd hv hba
    · rfl
  have := h.trans a b a hab hba'
  rw [h.irrefl a] at this
  exact Bool.false_ne_true this

theorem IsSWO.negtrans {α : Type} {lt : α → α → Bool} (h : IsSWO lt) {a b c : α}
    (hab : lt a b = false) (hbc : lt b c = false) : lt a c = false := by
  cases hv : lt a c
  · rfl
  · rcases h.cotrans a b c hv with h1 | h1
    · rw [hab] at h1; exact absurd h1 Bool.false_ne_true
    · rw [hbc] at h1; exact absurd h1 Bool.false_ne_true

theorem ordered_min {α : Type} {lt : α → α → Bool} (hswo : IsSWO lt) :
    ∀ (t : HTree α), heapOrdered lt t = true →
      ∀ y ∈ HTree.mset t, ∀ m, HTree.rootVal t = some m → lt y m = false := by
  intro t
  induction t with
  | leaf => intro _ y hy; simp [HTree.mset] at hy
  | node v l r ihl ihr =>
    intro ht y hy m hm
    have hm' : v = m := by simpa [HTree.rootVal] using hm
    subst hm'
    rcases ordered_node_iff.mp ht with ⟨hvl, hvr, hl, hr⟩
    simp only [HTree.mset, Multiset.mem_cons, Multiset.mem_add] at hy
    rcases hy with rfl | hy | hy
    · exact hswo.irrefl y
    · cases l with
      | leaf => simp [HTree.mset] at hy
      | node lv ll lr =>
        have h1 : lt y lv = false := ihl hl y hy lv rfl
        have h2 : lt lv v = false := by
          rw [rootLe_iff] at hvl
          exact hvl lv rfl
        exact hswo.negtrans h1 h2
    · cases r with
      | leaf => simp [HTree.mset] at hy
      | node rv rl rr =>
        have h1 : lt y rv = false := ihr hr y hy rv rfl
        have h2 : lt rv v = false := by
          rw [rootLe_iff] at hvr
          exact hvr rv rfl
        exact hswo.negtrans h1 h2

theorem ordered_congr {α : Type} {lt1 lt2 : α → α → Bool} :
    ∀ t : HTree α, (∀ x ∈ HTree.mset t, ∀ y ∈ HTree.mset t, lt1 x y = lt2 x y) →
      heapOrdered lt1 t = heapOrdered lt2 t := by
  intro t
  induction t with
  | leaf => intro _; rfl
  | node v l r ihl ihr =>
    intro hc
    have hmem : ∀ z, z ∈ HTree.mset l ∨ z ∈ HTree.mset r ∨ z = v →
        z ∈ HTree.mset (HTree.node v l r) := by
      intro z hz
      simp only [HTree.mset, Multiset.mem_cons, Multiset.mem_add]
      tauto
    have hl := ihl fun x hx y hy =>
      hc x (hmem x (Or.inl hx)) y (hmem y (Or.inl hy))
    have hr := ihr fun x hx y hy =>
      hc x (hmem x (Or.inr (Or.inl hx))) y (hmem y (Or.inr (Or.inl hy)))
    have hrl : rootLe lt1 v l = rootLe lt2 v l := by
      cases l with
      | leaf => rfl
      | node lv _ _ =>
        simp only [rootLe]
        rw [hc lv (hmem lv (Or.inl (by simp [HTree.mset]))) v (hmem v (Or.inr (Or.inr rfl)))]
    have hrr : rootLe lt1 v r = rootLe lt2 v r := by
      cases r with
      | leaf => rfl
      | node rv _ _ =>
        simp only [rootLe]
        rw [hc rv (hmem rv (Or.inr (Or.inl (by simp [HTree.mset])))) v
          (hmem v (Or.inr (Or.inr rfl)))]
    simp [heapOrdered, hl, hr, hrl, hrr]

theorem siftUp_cons_right {α : Type} (lt : α → α → Bool) (bs : List Bool)
    (v : α) (l r : HTree α) :
    siftUp lt (true :: bs) (HTree.node v l r) =
      match siftUp lt bs r with
      | (HTree.leaf, _) => (HTree.node v l HTree.leaf, false)
      | (HTree.node rv rl rr, moving) =>
        if moving && lt rv v then (HTree.node rv l (HTree.node v rl rr), true)
        else (HTree.node v l (HTree.node rv rl rr), false) := by
  simp [siftUp]

theorem siftUp_cons_left {α : Type} (lt : α → α → Bool) (bs : List Bool)
    (v : α) (l r : HTree α) :
    siftUp lt (false :: bs) (HTree.node v l r) =
      match siftUp lt bs l with
      | (HTree.leaf, _) => (HTree.node v HTree.leaf r, false)
      | (HTree.node lv ll lr, moving) =>
        if moving && lt lv v then (HTree.node lv (HTree.node v ll lr) r, true)
        else (HTree.node v (HTree.node lv ll lr) r, false) := by
  simp [siftUp]

theorem siftUp_shape {α : Type} (lt : α → α → Bool) :
    ∀ (p : List Bool) (t : HTree α), HTree.shape (siftUp lt p t).1 = HTree.shape t := by
  intro p
  induction p with
  | nil => intro t; rfl
  | cons b bs ih =>
    intro t
    cases t with
    | leaf => simp [siftUp]
    | node v l r =>
      cases b
      · rw [siftUp_cons_left]
        have ihl := ih l
        rcases hl : siftUp lt bs l with ⟨l', mv⟩
        rw [hl] at ihl
        cases l' with
        | leaf => simp [HTree.shape, ← ihl]
        | node lv ll lr =>
          by_cases hc : (mv && lt lv v) = true
          · simp only [if_pos hc]
            simp only [HTree.shape] at ihl ⊢
            rw [← ihl]
          · simp only [if_neg hc]
            simp only [HTree.shape] at ihl ⊢
            rw [← ihl]
      · rw [siftUp_cons_right]
        have ihr := ih r
        rcases hr : siftUp lt bs r with ⟨r', mv⟩
        rw [hr] at ihr
        cases r' with
        | leaf => simp [HTree.shape, ← ihr]
        | node rv rl rr =>
          by_cases hc : (mv && lt rv v) = true
          · simp only [if_pos hc]
            simp only [HTree.shape] at ihr ⊢
            rw [← ihr]
          · simp only [if_neg hc]
            simp only [HTree.shape] at ihr ⊢
            rw [← ihr]

theorem siftUp_mset {α : Type} (lt : α → α → Bool) :
    ∀ (p : List Bool) (t : HTree α), HTree.mset (siftUp lt p t).1 = HTree.mset t := by
  intro p
  induction p with
  | nil => intro t; rfl
  | cons b bs ih =>
    intro t
    cases t with
    | leaf => simp [siftUp]
    | node v l r =>
      cases b
      · rw [siftUp_cons_left]
        have ihl := ih l
        rcases hl : siftUp lt bs l with ⟨l', mv⟩
        rw [hl] at ihl
        cases l' with
        | leaf => simp [HTree.mset, ← ihl]
        | node lv ll lr =>
          by_cases hc : (mv && lt lv v) = true
          · simp only [if_pos hc, HTree.mset] at ihl ⊢
            rw [← ihl, Multiset.cons_add, Multiset.cons_add, Multiset.cons_swap]
          · simp only [if_neg hc, HTree.mset] at ihl ⊢
            rw [← ihl]
      · rw [siftUp_cons_right]
        have ihr := ih r
        rcases hr : siftUp lt bs r with ⟨r', mv⟩
        rw [hr] at ihr
        cases r' with
        | leaf => simp [HTree.mset, ← ihr]
        | node rv rl rr =>
          by_cases hc : (mv && lt rv v) = true
          · simp only [if_pos hc, HTree.mset] at ihr ⊢
            rw [← ihr, Multiset.add_cons, Multiset.add_cons, Multiset.cons_swap]
          · simp only [if_neg hc, HTree.mset] at ihr ⊢
            rw [← ihr]

theorem siftUp_ordered_id {α : Type} {lt : α → α → Bool} :
    ∀ (p : List Bool) (t : HTree α), heapOrdered lt t = true →
      (siftUp lt p t).1 = t := by
  intro p
  induction p with
  | nil => intro t _; rfl
  | cons b bs ih =>
    intro t ht
    cases t with
    | leaf => simp [siftUp]
    | node v l r =>
      rcases ordered_node_iff.mp ht with ⟨hvl, hvr, hl, hr⟩
      cases b
      · rw [siftUp_cons_left]
        have ihl := ih l hl
        rcases hsl : siftUp lt bs l with ⟨l', mv⟩
        rw [hsl] at ihl
        have ihl2 : l' = l := ihl
        subst ihl2
        cases l' with
        | leaf => rfl
        | node lv ll lr =>
          have hlv : lt lv v = false := by
            rw [rootLe_iff] at hvl
            exact hvl lv rfl
          simp [hlv]
      · rw [siftUp_cons_right]
        have ihr := ih r hr
        rcases hsr : siftUp lt bs r with ⟨r', mv⟩
        rw [hsr] at ihr
        have ihr2 : r' = r := ihr
        subst ihr2
        cases r' with
        | leaf => rfl
        | node rv rl rr =>
          have hrv : lt rv v = false := by
            rw [rootLe_iff] at hvr
            exact hvr rv rfl
          simp [hrv]

theorem spineOk_nil {α : Type} {lt : α → α → Bool} {P : Option α → HTree α → Prop}
    {po : Option α} {t : HTree α} : spineOk lt P [] po t ↔ P po t := by
  simp [spineOk]

theorem spineOk_cons {α : Type} {lt : α → α → Bool} {P : Option α → HTree α → Prop}
    {b : Bool} {bs : List Bool} {po : Option α} {t : HTree α} :
    spineOk lt P (b :: bs) po t ↔
      ∃ v l r, t = HTree.node v l r ∧ (∀ pv, po = some pv → lt v pv = false) ∧
        (if b then spineOk lt P bs (some v) r ∧ heapOrdered lt l = true ∧ rootLe lt v l = true
         else spineOk lt P bs (some v) l ∧ heapOrdered lt r = true ∧ rootLe lt v r = true) := by
  simp [spineOk]

theorem spineOk_map {α : Type} {lt : α → α → Bool}
    {P Q : Option α → HTree α → Prop} (f : HTree α → HTree α) :
    ∀ (bs : List Bool) (po : Option α) (t : HTree α),
      spineOk lt P bs po t → (∀ po' s, P po' s → Q po' (f s)) →
      spineOk lt Q bs po (mapSub f bs t) := by
  intro bs
  induction bs with
  | nil => intro po t hp hf; exact spineOk_nil.mpr (hf po t (spineOk_nil.mp hp))
  | cons b bs ih =>
    intro po t hp hf
    rcases spineOk_cons.mp hp with ⟨v, l, r, rfl, hv, hif⟩
    cases b
    · simp only [if_neg Bool.false_ne_true] at hif
      refine spineOk_cons.mpr ⟨v, mapSub f bs l, r, by simp [mapSub], hv, ?_⟩
      simp only [if_neg Bool.false_ne_true]
      exact ⟨ih (some v) l hif.1 hf, hif.2.1, hif.2.2⟩
    · simp only [if_pos rfl] at hif
      refine spineOk_cons.mpr ⟨v, l, mapSub f bs r, by simp [mapSub], hv, ?_⟩
      simp only [if_pos rfl]
      exact ⟨ih (some v) r hif.1 hf, hif.2.1, hif.2.2⟩

theorem ord_spineOk {α : Type} {lt : α → α → Bool} :
    ∀ (bs : List Bool) (t u : HTree α) (po : Option α),
      heapOrdered lt t = true → navigate t bs = some u →
      (∀ c pv, HTree.rootVal t = some c → po = some pv → lt c pv = false) →
      spineOk lt (fun po' s => s = u ∧ orderedTop lt po' s) bs po t := by
  intro bs
  induction bs with
  | nil =>
    intro t u po ht hn hroot
    have : u = t := by simpa [navigate] using hn.symm
    subst this
    exact spineOk_nil.mpr ⟨rfl, ht, hroot⟩
  | cons b bs ih =>
    intro t u po ht hn hroot
    cases t with
    | leaf => simp [navigate] at hn
    | node v l r =>
      rcases ordered_node_iff.mp ht with ⟨hvl, hvr, hl, hr⟩
      have hn' : navigate (if b then r else l) bs = some u := hn
      refine spineOk_cons.mpr ⟨v, l, r, rfl, fun pv hpv => hroot v pv rfl hpv, ?_⟩
      cases b
      · simp only [if_neg Bool.false_ne_true]
        refine ⟨ih l u (some v) hl (by simpa using hn') ?_, hr, hvr⟩
        intro c pv hc hpv
        rw [rootLe_iff] at hvl
        injection hpv with h
        exact h ▸ hvl c hc
      · simp only [if_pos rfl]
        refine ⟨ih r u (some v) hr (by simpa using hn') ?_, hl, hvl⟩
        intro c pv hc hpv
        rw [rootLe_iff] at hvr
        injection hpv with h
        exact h ▸ hvr c hc

theorem spineOk_ordered {α : Type} {lt : α → α → Bool} :
    ∀ (bs : List Bool) (po : Option α) (t : HTree α),
      spineOk lt (orderedTop lt) bs po t →
      heapOrdered lt t = true ∧
        (∀ c pv, HTree.rootVal t = some c → po = some pv → lt c pv = false) := by
  intro bs
  induction bs with
  | nil => intro po t hp; exact spineOk_nil.mp hp
  | cons b bs ih =>
    intro po t hp
    rcases spineOk_cons.mp hp with ⟨v, l, r, rfl, hv, hif⟩
    cases b
    · simp only [if_neg Bool.false_ne_true] at hif
      rcases ih (some v) l hif.1 with ⟨hlo, hlr⟩
      refine ⟨ordered_node_iff.mpr ⟨?_, hif.2.2, hlo, hif.2.1⟩, ?_⟩
      · rw [rootLe_iff]
        intro c hc
        exact hlr c v hc rfl
      · intro c pv hc hpv
        injection hc with h
        exact h ▸ hv pv hpv
    · simp only [if_pos rfl] at hif
      rcases ih (some v) r hif.1 with ⟨hro, hrr⟩
      refine ⟨ordered_node_iff.mpr ⟨hif.2.2, ?_, hif.2.1, hro⟩, ?_⟩
      · rw [rootLe_iff]
        intro c hc
        exact hrr c v hc rfl
      · intro c pv hc hpv
        injection hc with h
        exact h ▸ hv pv hpv

theorem insert_spineOk {α : Type} {lt : α → α → Bool} (x : α) :
    ∀ (bs : List Bool) (t : HTree α) (po : Option α),
      heapOrdered lt t = true → navigate t bs = some HTree.leaf →
      (∀ c pv, HTree.rootVal t = some c → po = some pv → lt c pv = false) →
      spineOk lt (liftOkBase lt x) bs po (insertAt x bs t) := by
  intro bs
  induction bs with
  | nil =>
    intro t po _ hn _
    have : HTree.leaf = t := by simpa [navigate] using hn.symm
    subst this
    refine spineOk_nil.mpr ⟨HTree.leaf, HTree.leaf, rfl, rfl, rfl, ?_⟩
    intro c hc
    rcases hc with hc | hc <;> simp [HTree.rootVal] at hc
  | cons b bs ih =>
    intro t po ht hn hroot
    cases t with
    | leaf => simp [navigate] at hn
    | node v l r =>
      rcases ordered_node_iff.mp ht with ⟨hvl, hvr, hl, hr⟩
      have hn' : navigate (if b then r else l) bs = some HTree.leaf := hn
      cases b
      · refine spineOk_cons.mpr ⟨v, insertAt x bs l, r, by simp [insertAt], fun pv hpv => hroot v pv rfl hpv, ?_⟩
        simp only [if_neg Bool.false_ne_true]
        refine ⟨ih l (some v) hl (by simpa using hn') ?_, hr, hvr⟩
        intro c pv hc hpv
        rw [rootLe_iff] at hvl
        injection hpv with h
        exact h ▸ hvl c hc
      · refine spineOk_cons.mpr ⟨v, l, insertAt x bs r, by simp [insertAt], fun pv hpv => hroot v pv rfl hpv, ?_⟩
        simp only [if_pos rfl]
        refine ⟨ih r (some v) hr (by simpa using hn') ?_, hl, hvl⟩
        intro c pv hc hpv
        rw [rootLe_iff] at hvr
        injection hpv with h
        exact h ▸ hvr c hc

theorem siftUp_spec {α : Type} {lt : α → α → Bool} (hswo : IsSWO lt) (x : α) :
    ∀ (bs : List Bool) (po : Option α) (t : HTree α),
      spineOk lt (liftOkBase lt x) bs po t →
      ((siftUp lt bs t).2 = true → liftOkBase lt x po (siftUp lt bs t).1) ∧
      ((siftUp lt bs t).2 = false → orderedTop lt po (siftUp lt bs t).1) := by
  intro bs
  induction bs with
  | nil =>
    intro po t hp
    refine ⟨fun _ => spineOk_nil.mp hp, fun h => ?_⟩
    simp [siftUp] at h
  | cons b bs ih =>
    intro po t hp
    rcases spineOk_cons.mp hp with ⟨v, l, r, rfl, hv, hif⟩
    cases b
    · simp only [if_neg Bool.false_ne_true] at hif
      obtain ⟨hsp, hso, hsr⟩ := hif
      rw [siftUp_cons_left]
      have IH := ih (some v) l hsp
      rcases hsl : siftUp lt bs l with ⟨l', mv⟩
      rw [hsl] at IH
      cases mv
      · have hot := IH.2 rfl
        cases l' with
        | leaf =>
          refine ⟨fun h => by simp at h, fun _ => ⟨?_, ?_⟩⟩
          · exact ordered_node_iff.mpr ⟨by simp [rootLe], hsr, rfl, hso⟩
          · intro c pv hc hpv
            injection hc with h
            exact h ▸ hv pv hpv
        | node lv ll lr =>
          have hlv : lt lv v = false := hot.2 lv v rfl rfl
          simp only [Bool.false_and, if_neg Bool.false_ne_true]
          refine ⟨fun h => by simp at h, fun _ => ⟨?_, ?_⟩⟩
          · refine ordered_node_iff.mpr ⟨?_, hsr, hot.1, hso⟩
            rw [rootLe_iff]
            intro c hc
            injection hc with h
            exact h ▸ hlv
          · intro c pv hc hpv
            injection hc with h
            exact h ▸ hv pv hpv
      · have hbase := IH.1 rfl
        obtain ⟨cl, cr, hl'eq, hocl, hocr, hconds⟩ := hbase
        subst hl'eq
        by_cases hlt : lt x v = true
        · simp only [Bool.true_and, if_pos hlt]
          refine ⟨fun _ => ?_, fun h => by simp at h⟩
          refine ⟨HTree.node v cl cr, r, rfl, ?_, hso, ?_⟩
          · refine ordered_node_iff.mpr ⟨?_, ?_, hocl, hocr⟩
            · rw [rootLe_iff]
              intro c hc
              exact ((hconds c (Or.inl hc)).2 v rfl)
            · rw [rootLe_iff]
              intro c hc
              exact ((hconds c (Or.inr hc)).2 v rfl)
          · intro c hc
            rcases hc with hc | hc
            · injection hc with h
              subst h
              refine ⟨hswo.asymm hlt, fun pv hpv => hv pv hpv⟩
            · have hcv : lt c v = false := rootLe_iff.mp hsr c hc
              have hcx : lt c x = false := by
                cases hx : lt c x
                · rfl
                · have := hswo.trans c x v hx hlt
                  rw [hcv] at this
                  exact absurd this Bool.false_ne_true
              refine ⟨hcx, fun pv hpv => hswo.negtrans hcv (hv pv hpv)⟩
        · have hlt' : lt x v = false := by
            cases hx : lt x v
            · rfl
            · exact absurd hx hlt
          simp only [Bool.true_and, hlt', if_neg Bool.false_ne_true]
          refine ⟨fun h => by simp at h, fun _ => ⟨?_, ?_⟩⟩
          · refine ordered_node_iff.mpr ⟨?_, hsr, ?_, hso⟩
            · rw [rootLe_iff]
              intro c hc
              injection hc with h
              exact h ▸ hlt'
            · refine ordered_node_iff.mpr ⟨?_, ?_, hocl, hocr⟩
              · rw [rootLe_iff]
                intro c hc
                exact (hconds c (Or.inl hc)).1
              · rw [rootLe_iff]
                intro c hc
                exact (hconds c (Or.inr hc)).1
          · intro c pv hc hpv
            injection hc with h
            exact h ▸ hv pv hpv
    · simp only [if_pos rfl] at hif
      obtain ⟨hsp, hso, hsr⟩ := hif
      rw [siftUp_cons_right]
      have IH := ih (some v) r hsp
      rcases hsr' : siftUp lt bs r with ⟨r', mv⟩
      rw [hsr'] at IH
      cases mv
      · have hot := IH.2 rfl
        cases r' with
        | leaf =>
          refine ⟨fun h => by simp at h, fun _ => ⟨?_, ?_⟩⟩
          · exact ordered_node_iff.mpr ⟨hsr, by simp [rootLe], hso, rfl⟩
          · intro c pv hc hpv
            injection hc with h
            exact h ▸ hv pv hpv
        | node rv rl rr =>
          have hrv : lt rv v = false := hot.2 rv v rfl rfl
          simp only [Bool.false_and, if_neg Bool.false_ne_true]
          refine ⟨fun h => by simp at h, fun _ => ⟨?_, ?_⟩⟩
          · refine ordered_node_iff.mpr ⟨hsr, ?_, hso, hot.1⟩
            rw [rootLe_iff]
            intro c hc
            injection hc with h
            exact h ▸ hrv
          · intro c pv hc hpv
            injection hc with h
            exact h ▸ hv pv hpv
      · have hbase := IH.1 rfl
        obtain ⟨cl, cr, hr'eq, hocl, hocr, hconds⟩ := hbase
        subst hr'eq
        by_cases hlt : lt x v = true
        · simp only [Bool.true_and, if_pos hlt]
          refine ⟨fun _ => ?_, fun h => by simp at h⟩
          refine ⟨l, HTree.node v cl cr, rfl, hso, ?_, ?_⟩
          · refine ordered_node_iff.mpr ⟨?_, ?_, hocl, hocr⟩
            · rw [rootLe_iff]
              intro c hc
              exact ((hconds c (Or.inl hc)).2 v rfl)
            · rw [rootLe_iff]
              intro c hc
              exact ((hconds c (Or.inr hc)).2 v rfl)
          · intro c hc
            rcases hc with hc | hc
            · have hcv : lt c v = false := rootLe_iff.mp hsr c hc
              have hcx : lt c x = false := by
                cases hx : lt c x
                · rfl
                · have := hswo.trans c x v hx hlt
                  rw [hcv] at this
                  exact absurd this Bool.false_ne_true
              refine ⟨hcx, fun pv hpv => hswo.negtrans hcv (hv pv hpv)⟩
            · injection hc with h
              subst h
              refine ⟨hswo.asymm hlt, fun pv hpv => hv pv hpv⟩
        · have hlt' : lt x v = false := by
            cases hx : lt x v
            · rfl
            · exact absurd hx hlt
          simp only [Bool.true_and, hlt', if_neg Bool.false_ne_true]
          refine ⟨fun h => by simp at h, fun _ => ⟨?_, ?_⟩⟩
          · refine ordered_node_iff.mpr ⟨hsr, ?_, hso, ?_⟩
            · rw [rootLe_iff]
              intro c hc
              injection hc with h
              exact h ▸ hlt'
            · refine ordered_node_iff.mpr ⟨?_, ?_, hocl, hocr⟩
              · rw [rootLe_iff]
                intro c hc
                exact (hconds c (Or.inl hc)).1
              · rw [rootLe_iff]
                intro c hc
                exact (hconds c (Or.inr hc)).1
          · intro c pv hc hpv
            injection hc with h
            exact h ▸ hv pv hpv

theorem siftDown_sub_ok {α : Type} {lt : α → α → Bool} {q1 : HTree α} {q2 : List Bool}
    {x w : α} {cl cr : HTree α}
    (hcase : (q2 = [] ∧ q1 = HTree.node x cl cr ∧ rootLe lt x cl = true ∧
        rootLe lt x cr = true) ∨
      (q2 ≠ [] ∧ heapOrdered lt q1 = true ∧
        ∀ pv, (∀ c, (HTree.rootVal cl = some c ∨ HTree.rootVal cr = some c) →
            lt c pv = false) →
          ∀ c, HTree.rootVal q1 = some c → lt c pv = false))
    (hocl : heapOrdered lt cl = true) (hocr : heapOrdered lt cr = true)
    (hxw : lt x w = false)
    (hbr : ∀ c, (HTree.rootVal cl = some c ∨ HTree.rootVal cr = some c) → lt c w = false) :
    heapOrdered lt q1 = true ∧ rootLe lt w q1 = true := by
  rcases hcase with ⟨_, hq, hxl, hxr⟩ | ⟨_, hord, hroot⟩
  · subst hq
    refine ⟨ordered_node_iff.mpr ⟨hxl, hxr, hocl, hocr⟩, ?_⟩
    rw [rootLe_iff]
    intro c hc
    injection hc with h
    exact h ▸ hxw
  · refine ⟨hord, ?_⟩
    rw [rootLe_iff]
    intro c hc
    exact hroot w hbr c hc

theorem siftDownRoot_spec {α : Type} {lt : α → α → Bool} (hswo : IsSWO lt) :
    ∀ (fuel : Nat) (x : α) (l r : HTree α),
      HTree.size (HTree.node x l r) ≤ fuel →
      heapOrdered lt l = true → heapOrdered lt r = true →
      HTree.shape (siftDownRoot lt fuel (HTree.node x l r)).1 =
        HTree.shape (HTree.node x l r) ∧
      HTree.mset (siftDownRoot lt fuel (HTree.node x l r)).1 =
        HTree.mset (HTree.node x l r) ∧
      (((siftDownRoot lt fuel (HTree.node x l r)).2 = [] ∧
          (siftDownRoot lt fuel (HTree.node x l r)).1 = HTree.node x l r ∧
          rootLe lt x l = true ∧ rootLe lt x r = true) ∨
        ((siftDownRoot lt fuel (HTree.node x l r)).2 ≠ [] ∧
          heapOrdered lt (siftDownRoot lt fuel (HTree.node x l r)).1 = true ∧
          ∀ pv, (∀ c, (HTree.rootVal l = some c ∨ HTree.rootVal r = some c) →
              lt c pv = false) →
            ∀ c, HTree.rootVal (siftDownRoot lt fuel (HTree.node x l r)).1 = some c →
              lt c pv = false)) := by
  intro fuel
  induction fuel with
  | zero =>
    intro x l r hsz _ _
    simp [HTree.size] at hsz
  | succ f ih =>
    intro x l r hsz hol hor
    cases l with
    | leaf =>
      cases r with
      | leaf =>
        refine ⟨rfl, rfl, Or.inl ⟨rfl, rfl, rfl, rfl⟩⟩
      | node rv rl rr =>
        rcases ordered_node_iff.mp hor with ⟨hrvl, hrvr, horl, horr⟩
        by_cases hrv : lt rv x = true
        · simp only [siftDownRoot, hrv, if_pos rfl]
          rcases hq : siftDownRoot lt f (HTree.node x rl rr) with ⟨q1, q2⟩
          have IH := ih x rl rr (by simp [HTree.size] at hsz ⊢; omega) horl horr
          rw [hq] at IH
          obtain ⟨ihs, ihm, ihc⟩ := IH
          have hsub := siftDown_sub_ok (w := rv) ihc horl horr
            (hswo.asymm hrv)
            (fun c hc => by
              rcases hc with hc | hc
              · exact rootLe_iff.mp hrvl c hc
              · exact rootLe_iff.mp hrvr c hc)
          refine ⟨?_, ?_, Or.inr ⟨by simp, ?_, ?_⟩⟩
          · simp only [HTree.shape] at ihs ⊢
            rw [ihs]
          · simp only [HTree.mset] at ihm ⊢
            rw [ihm, Multiset.add_cons, Multiset.add_cons, Multiset.cons_swap]
          · exact ordered_node_iff.mpr ⟨rfl, hsub.2, rfl, hsub.1⟩
          · intro pv hpv c hc
            injection hc with h
            exact h ▸ hpv rv (Or.inr rfl)
        · have hrv' : lt rv x = false := by
            cases hx : lt rv x
            · rfl
            · exact absurd hx hrv
          simp only [siftDownRoot, hrv', if_neg Bool.false_ne_true]
          exact ⟨by simp, by simp, Or.inl (by simp [rootLe, hrv'])⟩
    | node lv ll lr =>
      rcases ordered_node_iff.mp hol with ⟨hlvl, hlvr, holl, holr⟩
      cases r with
      | leaf =>
        by_cases hlv : lt lv x = true
        · simp only [siftDownRoot, hlv, if_pos rfl]
          rcases hq : siftDownRoot lt f (HTree.node x ll lr) with ⟨q1, q2⟩
          have IH := ih x ll lr (by simp [HTree.size] at hsz ⊢; omega) holl holr
          rw [hq] at IH
          obtain ⟨ihs, ihm, ihc⟩ := IH
          have hsub := siftDown_sub_ok (w := lv) ihc holl holr
            (hswo.asymm hlv)
            (fun c hc => by
              rcases hc with hc | hc
              · exact rootLe_iff.mp hlvl c hc
              · exact rootLe_iff.mp hlvr c hc)
          refine ⟨?_, ?_, Or.inr ⟨by simp, ?_, ?_⟩⟩
          · simp only [HTree.shape] at ihs ⊢
            rw [ihs]
          · simp only [HTree.mset] at ihm ⊢
            rw [ihm, Multiset.cons_add, Multiset.cons_add, Multiset.cons_swap]
          · exact ordered_node_iff.mpr ⟨hsub.2, rfl, hsub.1, rfl⟩
          · intro pv hpv c hc
            injection hc with h
            exact h ▸ hpv lv (Or.inl rfl)
        · have hlv' : lt lv x = false := by
            cases hx : lt lv x
            · rfl
            · exact absurd hx hlv
          simp only [siftDownRoot, hlv', if_neg Bool.false_ne_true]
          exact ⟨by simp, by simp, Or.inl (by simp [rootLe, hlv'])⟩
      | node rv rl rr =>
        rcases ordered_node_iff.mp hor with ⟨hrvl, hrvr, horl, horr⟩
        by_cases hlv : lt lv x = true
        · by_cases hrl : lt rv lv = true
          · -- smallest is the right child
            simp only [siftDownRoot, hlv, hrl, if_pos rfl]
            rcases hq : siftDownRoot lt f (HTree.node x rl rr) with ⟨q1, q2⟩
            have IH := ih x rl rr (by simp [HTree.size] at hsz ⊢; omega) horl horr
            rw [hq] at IH
            obtain ⟨ihs, ihm, ihc⟩ := IH
            have hxrv : lt x rv = false := hswo.asymm (hswo.trans rv lv x hrl hlv)
            have hsub := siftDown_sub_ok (w := rv) ihc horl horr hxrv
              (fun c hc => by
                rcases hc with hc | hc
                · exact rootLe_iff.mp hrvl c hc
                · exact rootLe_iff.mp hrvr c hc)
            refine ⟨?_, ?_, Or.inr ⟨by simp, ?_, ?_⟩⟩
            · simp only [HTree.shape] at ihs ⊢
              rw [ihs]
            · simp only [HTree.mset] at ihm ⊢
              rw [ihm, Multiset.add_cons, Multiset.add_cons, Multiset.cons_swap]
            · refine ordered_node_iff.mpr ⟨?_, hsub.2, ordered_node_iff.mpr ⟨hlvl, hlvr, holl, holr⟩, hsub.1⟩
              simp [rootLe, hswo.asymm hrl]
            · intro pv hpv c hc
              injection hc with h
              exact h ▸ hpv rv (Or.inr rfl)
          · -- smallest is the left child
            have hrl' : lt rv lv = false := by
              cases hx : lt rv lv
              · rfl
              · exact absurd hx hrl
            simp only [siftDownRoot, hlv, hrl', if_pos rfl, if_neg Bool.false_ne_true]
            rcases hq : siftDownRoot lt f (HTree.node x ll lr) with ⟨q1, q2⟩
            have IH := ih x ll lr (by simp [HTree.size] at hsz ⊢; omega) holl holr
            rw [hq] at IH
            obtain ⟨ihs, ihm, ihc⟩ := IH
            have hsub := siftDown_sub_ok (w := lv) ihc holl holr
              (hswo.asymm hlv)
              (fun c hc => by
                rcases hc with hc | hc
                · exact rootLe_iff.mp hlvl c hc
                · exact rootLe_iff.mp hlvr c hc)
            refine ⟨?_, ?_, Or.inr ⟨by simp, ?_, ?_⟩⟩
            · simp only [HTree.shape] at ihs ⊢
              rw [ihs]
            · simp only [HTree.mset] at ihm ⊢
              rw [ihm, Multiset.cons_add, Multiset.cons_add, Multiset.cons_swap]
            · refine ordered_node_iff.mpr ⟨hsub.2, ?_, hsub.1, ordered_node_iff.mpr ⟨hrvl, hrvr, horl, horr⟩⟩
              simp [rootLe, hrl']
            · intro pv hpv c hc
              injection hc with h
              exact h ▸ hpv lv (Or.inl rfl)
        · have hlv' : lt lv x = false := by
            cases hx : lt lv x
            · rfl
            · exact absurd hx hlv
          by_cases hrv : lt rv x = true
          · -- only the right child sorts before x
            simp only [siftDownRoot, hlv', hrv, if_neg Bool.false_ne_true, if_pos rfl]
            rcases hq : siftDownRoot lt f (HTree.node x rl rr) with ⟨q1, q2⟩
            have IH := ih x rl rr (by simp [HTree.size] at hsz ⊢; omega) horl horr
            rw [hq] at IH
            obtain ⟨ihs, ihm, ihc⟩ := IH
            have hsub := siftDown_sub_ok (w := rv) ihc horl horr
              (hswo.asymm hrv)
              (fun c hc => by
                rcases hc with hc | hc
                · exact rootLe_iff.mp hrvl c hc
                · exact rootLe_iff.mp hrvr c hc)
            have hlvrv : lt lv rv = false := by
              cases hx : lt lv rv
              · rfl
              · have := hswo.trans lv rv x hx hrv
                rw [hlv'] at this
                exact absurd this Bool.false_ne_true
            refine ⟨?_, ?_, Or.inr ⟨by simp, ?_, ?_⟩⟩
            · simp only [HTree.shape] at ihs ⊢
              rw [ihs]
            · simp only [HTree.mset] at ihm ⊢
              rw [ihm, Multiset.add_cons, Multiset.add_cons, Multiset.cons_swap]
            · refine ordered_node_iff.mpr ⟨?_, hsub.2, ordered_node_iff.mpr ⟨hlvl, hlvr, holl, holr⟩, hsub.1⟩
              simp [rootLe, hlvrv]
            · intro pv hpv c hc
              injection hc with h
              exact h ▸ hpv rv (Or.inr rfl)
          · have hrv' : lt rv x = false := by
              cases hx : lt rv x
              · rfl
              · exact absurd hx hrv
            simp only [siftDownRoot, hlv', hrv', if_neg Bool.false_ne_true]
            exact ⟨by simp, by simp, Or.inl (by simp [rootLe, hlv', hrv'])⟩

theorem pathOfIdx_len_mono :
    ∀ j i, 1 ≤ i → i ≤ j → (pathOfIdx i).length ≤ (pathOfIdx j).length := by
  intro j
  induction j using Nat.strong_induction_on with
  | _ j ih =>
    intro i hi hij
    by_cases h2i : 2 ≤ i
    · have h2j : 2 ≤ j := by omega
      rw [pathOfIdx_step h2i, pathOfIdx_step h2j]
      simp only [List.length_append, List.length_singleton]
      have := ih (j / 2) (by omega) (i / 2) (by omega) (by omega)
      omega
    · rw [pathOfIdx_small (by omega)]
      simp

theorem heapInv_init {α : Type} (lt : α → α → Bool) : heapInv lt (heap_init : Heap α) :=
  ⟨rfl, rfl⟩

/-!
## Lemmas: the canonical complete shape

Breadth-first slot i of cshape n holds a node exactly when i ≤ n; slot i
with i > n is an empty (NULL) slot when its parent slot i / 2 is occupied
and unreachable otherwise.  This is the "complete, bottom row filled left
to right" property in path form.
-/

theorem cshape_nav :
    ∀ n i, 1 ≤ i →
      (i ≤ n → ∃ l r, navigate (cshape n) (pathOfIdx i) = some (HTree.node () l r)) ∧
      (n < i → i / 2 ≤ n → navigate (cshape n) (pathOfIdx i) = some HTree.leaf) ∧
      (n < i → n < i / 2 → navigate (cshape n) (pathOfIdx i) = none) := by
  intro n
  induction n with
  | zero =>
    intro i hi
    refine ⟨fun h => absurd h (by omega), fun _ h2 => ?_, fun _ h2 => ?_⟩
    · have hone : i = 1 := by omega
      subst hone
      rfl
    · have h2i : 2 ≤ i := by omega
      rcases hp : pathOfIdx i with _ | ⟨b, bs⟩
      · exact absurd hp (pathOfIdx_ne_nil h2i)
      · rfl
  | succ m ih =>
    intro i hi
    have hvalid : navigate (cshape m) (pathOfIdx (m + 1)) = some HTree.leaf := by
      rcases ih (m + 1) (by omega) with ⟨_, h2, _⟩
      exact h2 (by omega) (by omega)
    have hcs : cshape (m + 1) =
        setSub (HTree.node () HTree.leaf HTree.leaf) (pathOfIdx (m + 1)) (cshape m) := by
      show insertAt () (pathOfIdx (m + 1)) (cshape m) = _
      rw [insertAt_eq_setSub]
    rcases list_tricho (pathOfIdx i) (pathOfIdx (m + 1)) with hpre | hpre | hdiv
    · obtain ⟨rest, hrest⟩ := hpre
      cases rest with
      | nil =>
        rw [List.append_nil] at hrest
        have hieq : i = m + 1 := pathOfIdx_inj i (m + 1) hi (by omega) hrest
        subst hieq
        refine ⟨fun _ => ?_, fun h _ => absurd h (by omega), fun h _ => absurd h (by omega)⟩
        rw [hcs, hrest]
        exact ⟨HTree.leaf, HTree.leaf, nav_setSub_self _ _ _ hvalid _⟩
      | cons b rest' =>
        have hq : navigate (cshape m) (pathOfIdx i) = some (HTree.node () HTree.leaf HTree.leaf) ∨
            ∃ l r, navigate (cshape m) (pathOfIdx i) = some (HTree.node () l r) := by
          rw [← hrest] at hvalid
          obtain ⟨v, l, r, hn⟩ := nav_sub_node hvalid
          exact Or.inr ⟨l, r, by simpa using hn⟩
        have him : i ≤ m := by
          by_contra hgt
          push_neg at hgt
          rcases hq with hq | ⟨l, r, hq⟩
          · by_cases hp2 : i / 2 ≤ m
            · have := (ih i hi).2.1 (by omega) hp2
              rw [this] at hq
              simp at hq
            · have := (ih i hi).2.2 (by omega) (by omega)
              rw [this] at hq
              simp at hq
          · by_cases hp2 : i / 2 ≤ m
            · have := (ih i hi).2.1 (by omega) hp2
              rw [this] at hq
              simp at hq
            · have := (ih i hi).2.2 (by omega) (by omega)
              rw [this] at hq
              simp at hq
        refine ⟨fun _ => ?_, fun h _ => absurd h (by omega), fun h _ => absurd h (by omega)⟩
        obtain ⟨l, r, hn⟩ : ∃ l r, navigate (cshape m) (pathOfIdx i) = some (HTree.node () l r) := by
          rcases hq with hq | hq
          · exact ⟨HTree.leaf, HTree.leaf, hq⟩
          · exact hq
        rw [hcs]
        obtain ⟨l', r', hn'⟩ := nav_setSub_prefix (pathOfIdx i) b rest' (cshape m)
          (HTree.node () HTree.leaf HTree.leaf) () l r hn
        rw [← hrest]
        exact ⟨l', r', hn'⟩
    · obtain ⟨rest, hrest⟩ := hpre
      cases rest with
      | nil =>
        rw [List.append_nil] at hrest
        have hieq : i = m + 1 := pathOfIdx_inj i (m + 1) hi (by omega) hrest.symm
        subst hieq
        refine ⟨fun _ => ?_, fun h _ => absurd h (by omega), fun h _ => absurd h (by omega)⟩
        rw [hcs, ← hrest]
        exact ⟨HTree.leaf, HTree.leaf, nav_setSub_self _ _ _ hvalid _⟩
      | cons b rest' =>
        have h2i : 2 ≤ i := by
          by_contra hlt
          push_neg at hlt
          rw [pathOfIdx_small hlt] at hrest
          simp at hrest
        have hstep := pathOfIdx_step h2i
        cases rest' with
        | nil =>
          have hpar : pathOfIdx (i / 2) = pathOfIdx (m + 1) ∧
              decide (i % 2 = 1) = b := by
            rw [hstep] at hrest
            have h1 := congrArg List.dropLast hrest
            have h2 := congrArg List.getLast? hrest
            simp only [List.dropLast_concat, List.getLast?_concat] at h1 h2
            exact ⟨h1.symm, by simpa using h2.symm⟩
          have hhalf : i / 2 = m + 1 :=
            pathOfIdx_inj (i / 2) (m + 1) (by omega) (by omega) hpar.1
          refine ⟨fun h => absurd h (by omega), fun _ _ => ?_, fun _ h => absurd hhalf (by omega)⟩
          rw [hcs, ← hrest, nav_append, nav_setSub_self _ _ _ hvalid _]
          cases b <;> rfl
        | cons c rest'' =>
          have hlen : (pathOfIdx (i / 2)).length =
              (pathOfIdx (m + 1)).length + 1 + rest''.length := by
            have h1 := congrArg List.length hrest
            have h2 := congrArg List.length hstep
            simp only [List.length_append, List.length_cons, List.length_singleton,
              List.length_nil] at h1 h2
            omega
          have hhalf : m + 1 < i / 2 := by
            by_contra hle
            push_neg at hle
            have := pathOfIdx_len_mono (m + 1) (i / 2) (by omega) hle
            omega
          refine ⟨fun h => absurd h (by omega), fun _ h => absurd h (by omega), fun _ _ => ?_⟩
          rw [hcs, ← hrest, nav_append, nav_setSub_self _ _ _ hvalid _]
          cases b <;> rfl
    · obtain ⟨pre, a, b, ptail, qtail, hab, hp, hq⟩ := hdiv
      have hnav : navigate (cshape (m + 1)) (pathOfIdx i) = navigate (cshape m) (pathOfIdx i) := by
        rw [hcs, hp, hq]
        exact nav_setSub_divergent pre b a qtail ptail (cshape m)
          (HTree.node () HTree.leaf HTree.leaf) (fun hh => hab hh.symm)
      have hne : i ≠ m + 1 := by
        intro hieq
        subst hieq
        rw [hp] at hq
        have := List.append_cancel_left hq
        simp only [List.cons.injEq] at this
        exact hab this.1
      have hne2 : i / 2 ≠ m + 1 := by
        intro hhalf
        by_cases h2i : 2 ≤ i
        · have hstep := pathOfIdx_step h2i
          rw [hhalf, hq] at hstep
          rw [hp] at hstep
          rw [List.append_assoc] at hstep
          have hcc := List.append_cancel_left hstep
          simp only [List.cons_append, List.cons.injEq] at hcc
          exact hab hcc.1
        · omega
      rcases ih i hi with ⟨ih1, ih2, ih3⟩
      refine ⟨fun h => ?_, fun h h2 => ?_, fun h h2 => ?_⟩
      · rw [hnav]
        exact ih1 (by omega)
      · rw [hnav]
        exact ih2 (by omega) (by omega)
      · rw [hnav]
        exact ih3 (by omega) (by omega)

theorem replaceAt_mapSub {α : Type} (x : α) :
    ∀ (p : List Bool) (t : HTree α), replaceAt x p t = mapSub (replaceAt x []) p t := by
  intro p
  induction p with
  | nil => intro t; rfl
  | cons b bs ih =>
    intro t
    cases t with
    | leaf => rfl
    | node v l r => cases b <;> simp [replaceAt, mapSub, ih]

theorem setSub_mapSub_const {α : Type} :
    ∀ (p : List Bool) (q t : HTree α), setSub q p t = mapSub (fun _ => q) p t := by
  intro p
  induction p with
  | nil => intro q t; rfl
  | cons b bs ih =>
    intro q t
    cases t with
    | leaf => rfl
    | node v l r => cases b <;> simp [setSub, mapSub, ih]

theorem nav_mapSub_self {α : Type} (f : HTree α → HTree α) :
    ∀ (p : List Bool) (t u : HTree α), navigate t p = some u →
      navigate (mapSub f p t) p = some (f u) := by
  intro p
  induction p with
  | nil =>
    intro t u h
    have ht : u = t := by simpa [navigate] using h.symm
    subst ht
    cases u <;> simp [mapSub, navigate]
  | cons b bs ih =>
    intro t u h
    cases t with
    | leaf => simp [navigate] at h
    | node v l r =>
      have h' : navigate (if b then r else l) bs = some u := h
      cases b <;> simpa [mapSub, navigate] using ih _ _ (by simpa using h')

theorem replace_deadend {α : Type} (x : α) :
    ∀ (p : List Bool) (t : HTree α),
      (navigate t p = none ∨ navigate t p = some HTree.leaf) → replaceAt x p t = t := by
  intro p
  induction p with
  | nil =>
    intro t h
    rcases h with h | h
    · simp [navigate] at h
    · have ht : HTree.leaf = t := by simpa [navigate] using h.symm
      subst ht
      rfl
  | cons b bs ih =>
    intro t h
    cases t with
    | leaf => rfl
    | node v l r =>
      have h' : navigate (if b then r else l) bs = none ∨
          navigate (if b then r else l) bs = some HTree.leaf := h
      cases b
      · have hrec := ih l (by simpa using h')
        simp [replaceAt, hrec]
      · have hrec := ih r (by simpa using h')
        simp [replaceAt, hrec]

theorem siftDownAt_none {α : Type} (lt : α → α → Bool) :
    ∀ (p : List Bool) (t : HTree α), navigate t p = none →
      (siftDownAt lt p t).1 = t := by
  intro p
  induction p with
  | nil => intro t h; simp [navigate] at h
  | cons b bs ih =>
    intro t h
    cases t with
    | leaf => rfl
    | node v l r =>
      have h' : navigate (if b then r else l) bs = none := h
      cases b
      · have hrec := ih l (by simpa using h')
        simp [siftDownAt, hrec]
      · have hrec := ih r (by simpa using h')
        simp [siftDownAt, hrec]

theorem siftDownAt_eq {α : Type} (lt : α → α → Bool) :
    ∀ (p : List Bool) (t u : HTree α), navigate t p = some u →
      siftDownAt lt p t =
        (setSub (siftDownRoot lt u.size u).1 p t,
          p ++ (siftDownRoot lt u.size u).2) := by
  intro p
  induction p with
  | nil =>
    intro t u h
    have ht : u = t := by simpa [navigate] using h.symm
    subst ht
    cases u <;> simp [siftDownAt, setSub]
  | cons b bs ih =>
    intro t u h
    cases t with
    | leaf => simp [navigate] at h
    | node v l r =>
      have h' : navigate (if b then r else l) bs = some u := h
      cases b
      · have hrec := ih l u (by simpa using h')
        simp [siftDownAt, setSub, hrec]
      · have hrec := ih r u (by simpa using h')
        simp [siftDownAt, setSub, hrec]

theorem liftOkBase_ordered {α : Type} {lt : α → α → Bool} {x : α} {po : Option α}
    {t : HTree α} (h : liftOkBase lt x po t) : heapOrdered lt t = true := by
  obtain ⟨l, r, rfl, hol, hor, hconds⟩ := h
  refine ordered_node_iff.mpr ⟨?_, ?_, hol, hor⟩
  · rw [rootLe_iff]
    intro c hc
    exact (hconds c (Or.inl hc)).1
  · rw [rootLe_iff]
    intro c hc
    exact (hconds c (Or.inr hc)).1

theorem size_setSub {α : Type} {p : List Bool} {t u s : HTree α}
    (h : navigate t p = some u) :
    HTree.size (setSub s p t) + u.size = t.size + s.size := by
  have hm := mset_setSub p t u s h
  have := congrArg Multiset.card hm
  simpa [Multiset.card_add, mset_card] using this

theorem cshape_valid (n : Nat) :
    navigate (cshape n) (pathOfIdx (n + 1)) = some HTree.leaf := by
  rcases cshape_nav n (n + 1) (by omega) with ⟨_, h2, _⟩
  exact h2 (by omega) (by omega)

theorem cshape_isnode {n : Nat} (h : 1 ≤ n) :
    ∃ l r, cshape n = HTree.node () l r := by
  rcases cshape_nav n 1 le_rfl with ⟨h1, _, _⟩
  obtain ⟨l, r, hn⟩ := h1 h
  refine ⟨l, r, ?_⟩
  have hp1 : pathOfIdx 1 = [] := rfl
  rw [hp1] at hn
  simpa [navigate] using hn

theorem cshape_last {n : Nat} (h : 1 ≤ n) :
    navigate (cshape n) (pathOfIdx n) = some (HTree.node () HTree.leaf HTree.leaf) := by
  rcases cshape_nav n n (by omega) with ⟨h1, _, _⟩
  obtain ⟨l, r, hn⟩ := h1 le_rfl
  have hpl : pathOfIdx (2 * n) = pathOfIdx n ++ [false] := by
    rw [pathOfIdx_step (by omega : 2 ≤ 2 * n)]
    have e1 : 2 * n / 2 = n := by omega
    have e2 : 2 * n % 2 = 0 := by omega
    rw [e1, e2]
    simp
  have hpr : pathOfIdx (2 * n + 1) = pathOfIdx n ++ [true] := by
    rw [pathOfIdx_step (by omega : 2 ≤ 2 * n + 1)]
    have e1 : (2 * n + 1) / 2 = n := by omega
    have e2 : (2 * n + 1) % 2 = 1 := by omega
    rw [e1, e2]
    simp
  have hl : navigate (cshape n) (pathOfIdx (2 * n)) = some HTree.leaf := by
    rcases cshape_nav n (2 * n) (by omega) with ⟨_, h2, _⟩
    exact h2 (by omega) (by omega)
  have hr : navigate (cshape n) (pathOfIdx (2 * n + 1)) = some HTree.leaf := by
    rcases cshape_nav n (2 * n + 1) (by omega) with ⟨_, h2, _⟩
    exact h2 (by omega) (by omega)
  rw [hpl, nav_append, hn] at hl
  rw [hpr, nav_append, hn] at hr
  simp [navigate] at hl hr
  rw [hn, hl, hr]

theorem size_cshape : ∀ n, (cshape n).size = n := by
  intro n
  induction n with
  | zero => rfl
  | succ m ih =>
    have hs := size_setSub (s := HTree.node () HTree.leaf HTree.leaf) (cshape_valid m)
    have hc : cshape (m + 1) =
        setSub (HTree.node () HTree.leaf HTree.leaf) (pathOfIdx (m + 1)) (cshape m) := by
      show insertAt () (pathOfIdx (m + 1)) (cshape m) = _
      rw [insertAt_eq_setSub]
    rw [hc]
    simp only [HTree.size] at hs
    omega

theorem occupied_shape {α : Type} (t : HTree α) (i : Nat) :
    occupied (HTree.shape t) i = occupied t i := by
  unfold occupied
  rw [nav_shape]
  cases hn : navigate t (pathOfIdx i) with
  | none => rfl
  | some u => cases u <;> rfl

theorem occupied_cshape {n i : Nat} (hi : 1 ≤ i) :
    occupied (cshape n) i = true ↔ i ≤ n := by
  constructor
  · intro h
    by_contra hgt
    push_neg at hgt
    rcases cshape_nav n i hi with ⟨_, h2, h3⟩
    unfold occupied at h
    by_cases hp : i / 2 ≤ n
    · rw [h2 (by omega) hp] at h
      simp at h
    · rw [h3 (by omega) (by omega)] at h
      simp at h
  · intro h
    rcases cshape_nav n i hi with ⟨h1, _, _⟩
    obtain ⟨l, r, hn⟩ := h1 h
    unfold occupied
    rw [hn]

theorem nav_shape_leaf {α : Type} {t : HTree α} {p : List Bool}
    (h : navigate (HTree.shape t) p = some HTree.leaf) :
    navigate t p = some HTree.leaf := by
  rw [nav_shape] at h
  cases hn : navigate t p with
  | none => rw [hn] at h; simp at h
  | some u =>
    rw [hn] at h
    have h2 : HTree.shape u = HTree.leaf := by simpa using h
    rw [shape_leaf_iff] at h2
    rw [h2]

theorem nav_shape_node {α : Type} {t : HTree α} {p : List Bool} {sl sr : HTree Unit}
    (h : navigate (HTree.shape t) p = some (HTree.node () sl sr)) :
    ∃ v l r, navigate t p = some (HTree.node v l r) ∧
      HTree.shape l = sl ∧ HTree.shape r = sr := by
  rw [nav_shape] at h
  cases hn : navigate t p with
  | none => rw [hn] at h; simp at h
  | some u =>
    rw [hn] at h
    have h2 : HTree.shape u = HTree.node () sl sr := by simpa using h
    obtain ⟨v, l, r, rfl, hsl, hsr⟩ := shape_node_elim h2
    exact ⟨v, l, r, rfl, hsl, hsr⟩

/-!
## Lemmas: heap_insert and heap_remove preserve the heap invariant
-/

theorem setSub_mapSub {α : Type} :
    ∀ (p : List Bool) (s : HTree α) (f : HTree α → HTree α) (t : HTree α),
      setSub s p (mapSub f p t) = setSub s p t := by
  intro p
  induction p with
  | nil => intro s f t; rfl
  | cons b bs ih =>
    intro s f t
    cases t with
    | leaf => rfl
    | node v l r => cases b <;> simp [setSub, mapSub, ih]

theorem heap_insert_spec {α : Type} {lt : α → α → Bool} (hswo : IsSWO lt)
    (h : Heap α) (x : α) (hInv : heapInv lt h) :
    heapInv lt (heap_insert lt h x) ∧ (heap_insert lt h x).nelts = h.nelts + 1 ∧
      HTree.mset (heap_insert lt h x).root = x ::ₘ HTree.mset h.root := by
  obtain ⟨hshape, hord⟩ := hInv
  have hdec : decodePath (heap_path (1 + h.nelts)).1 (heap_path (1 + h.nelts)).2 =
      pathOfIdx (h.nelts + 1) := by
    rw [heap_path_decode]
    congr 1
    omega
  have hnav : navigate h.root (pathOfIdx (h.nelts + 1)) = some HTree.leaf := by
    apply nav_shape_leaf
    rw [hshape]
    exact cshape_valid h.nelts
  have hroot : (heap_insert lt h x).root =
      (siftUp lt (pathOfIdx (h.nelts + 1))
        (insertAt x (pathOfIdx (h.nelts + 1)) h.root)).1 := by
    show (siftUp lt (decodePath (heap_path (1 + h.nelts)).1 (heap_path (1 + h.nelts)).2)
        (insertAt x (decodePath (heap_path (1 + h.nelts)).1 (heap_path (1 + h.nelts)).2)
          h.root)).1 = _
    rw [hdec]
  have hsp := insert_spineOk x (pathOfIdx (h.nelts + 1)) h.root none hord hnav
    (fun c pv _ hpv => Option.noConfusion hpv)
  have hspec := siftUp_spec hswo x (pathOfIdx (h.nelts + 1)) none _ hsp
  refine ⟨⟨?_, ?_⟩, rfl, ?_⟩
  · show HTree.shape (heap_insert lt h x).root = cshape (h.nelts + 1)
    rw [hroot, siftUp_shape, insertAt_eq_setSub, shape_setSub, hshape]
    have hc : cshape (h.nelts + 1) =
        insertAt () (pathOfIdx (h.nelts + 1)) (cshape h.nelts) := rfl
    rw [hc, insertAt_eq_setSub]
    rfl
  · rw [hroot]
    cases hmv : (siftUp lt (pathOfIdx (h.nelts + 1))
        (insertAt x (pathOfIdx (h.nelts + 1)) h.root)).2
    · exact (hspec.2 hmv).1
    · exact liftOkBase_ordered (hspec.1 hmv)
  · rw [hroot, siftUp_mset, insertAt_eq_setSub]
    have hm := mset_setSub (pathOfIdx (h.nelts + 1)) h.root HTree.leaf
      (HTree.node x HTree.leaf HTree.leaf) hnav
    simp only [HTree.mset, add_zero] at hm
    rw [hm, Multiset.add_cons, add_zero]

theorem heap_remove_spec {α : Type} {lt : α → α → Bool} (hswo : IsSWO lt)
    (h : Heap α) (pos : List Bool) (hInv : heapInv lt h) :
    heapInv lt (heap_remove lt h pos) ∧ (heap_remove lt h pos).nelts = h.nelts - 1 ∧
      ∀ x xl xr, navigate h.root pos = some (HTree.node x xl xr) →
        x ::ₘ HTree.mset (heap_remove lt h pos).root = HTree.mset h.root := by
  obtain ⟨hshape, hord⟩ := hInv
  by_cases hn0 : h.nelts = 0
  · have hres : heap_remove lt h pos = h := by simp [heap_remove, hn0]
    rw [hres]
    refine ⟨⟨hshape, hord⟩, by omega, ?_⟩
    intro x xl xr hnav
    rw [hn0] at hshape
    have hleaf : h.root = HTree.leaf := shape_leaf_iff.mp hshape
    rw [hleaf] at hnav
    cases pos <;> simp [navigate] at hnav
  · obtain ⟨m, hm⟩ : ∃ m, h.nelts = m + 1 := ⟨h.nelts - 1, by omega⟩
    have hdec : decodePath (heap_path h.nelts).1 (heap_path h.nelts).2 =
        pathOfIdx h.nelts := heap_path_decode _
    have hlast0 : navigate (cshape h.nelts) (pathOfIdx h.nelts) =
        some (HTree.node () HTree.leaf HTree.leaf) := cshape_last (by omega)
    obtain ⟨c, cl, cr, hlast', hcl, hcr⟩ :=
      nav_shape_node (t := h.root) (p := pathOfIdx h.nelts)
        (by rw [hshape]; exact hlast0)
    have hcl' : cl = HTree.leaf := shape_leaf_iff.mp hcl
    have hcr' : cr = HTree.leaf := shape_leaf_iff.mp hcr
    rw [hcl', hcr'] at hlast'
    have hfst : (unlinkAt (pathOfIdx h.nelts) h.root).1 =
        setSub HTree.leaf (pathOfIdx h.nelts) h.root := unlinkAt_fst _ _
    have hsnd : (unlinkAt (pathOfIdx h.nelts) h.root).2 = some c := by
      rw [unlinkAt_snd _ _ _ hlast']
      rfl
    have hordt1 : heapOrdered lt (setSub HTree.leaf (pathOfIdx h.nelts) h.root) = true :=
      setSub_leaf_ordered _ _ hord
    have hshapet1 : HTree.shape (setSub HTree.leaf (pathOfIdx h.nelts) h.root) = cshape m := by
      rw [shape_setSub, hshape]
      have hc1 : cshape h.nelts = setSub (HTree.node () HTree.leaf HTree.leaf)
          (pathOfIdx h.nelts) (cshape m) := by
        rw [hm]
        show insertAt () (pathOfIdx (m + 1)) (cshape m) = _
        rw [insertAt_eq_setSub]
      rw [hc1, setSub_setSub]
      have hv := cshape_valid m
      rw [← hm] at hv
      exact setSub_of_nav _ _ _ hv
    have hmsett1 : c ::ₘ HTree.mset (setSub HTree.leaf (pathOfIdx h.nelts) h.root) =
        HTree.mset h.root := by
      have hms := mset_setSub (pathOfIdx h.nelts) h.root
        (HTree.node c HTree.leaf HTree.leaf) HTree.leaf hlast'
      simp only [HTree.mset, add_zero] at hms
      rw [Multiset.add_cons, add_zero] at hms
      exact hms
    by_cases hpos : pos = pathOfIdx h.nelts
    · -- removing exactly the last node
      have hres : heap_remove lt h pos =
          { root := (unlinkAt (pathOfIdx h.nelts) h.root).1, nelts := h.nelts - 1 } := by
        simp only [heap_remove, if_neg hn0, hdec]
        rw [if_pos hpos]
      rw [hres, hfst]
      refine ⟨⟨by rw [hshapet1]; show cshape m = cshape (h.nelts - 1); congr 1; omega,
        hordt1⟩, rfl, ?_⟩
      · intro x xl xr hnav
        rw [hpos, hlast'] at hnav
        injection hnav with hnav2
        injection hnav2 with he1 he2 he3
        subst he1
        exact hmsett1
    · -- splice the last node into the removed position and repair
      have hres : heap_remove lt h pos =
          { root := (siftUp lt
              (siftDownAt lt pos (replaceAt c pos
                (unlinkAt (pathOfIdx h.nelts) h.root).1)).2
              (siftDownAt lt pos (replaceAt c pos
                (unlinkAt (pathOfIdx h.nelts) h.root).1)).1).1,
            nelts := h.nelts - 1 } := by
        simp only [heap_remove, if_neg hn0, hdec]
        rw [if_neg hpos, hsnd]
      rw [hres, hfst]
      rcases hv : navigate h.root pos with _ | u
      · -- the path does not reach a node: nothing is spliced, the tree is
        -- the unlinked tree (undefined behaviour guard in the C code)
        have hnavt1 : navigate (setSub HTree.leaf (pathOfIdx h.nelts) h.root) pos = none := by
          rcases list_tricho pos (pathOfIdx h.nelts) with hpre | hpre | hdiv
          · obtain ⟨rest, hrest⟩ := hpre
            cases rest with
            | nil => rw [List.append_nil] at hrest; exact absurd hrest hpos
            | cons b rest' =>
              rw [← hrest] at hlast'
              obtain ⟨v2, l2, r2, hn2⟩ := nav_sub_node hlast'
              rw [hn2] at hv
              simp at hv
          · obtain ⟨rest, hrest⟩ := hpre
            cases rest with
            | nil => rw [List.append_nil] at hrest; exact absurd hrest.symm hpos
            | cons b rest' =>
              rw [← hrest, nav_append, nav_setSub_self _ _ _ hlast' _]
              rfl
          · obtain ⟨pre, a, b, ptail, qtail, hab, hp, hq⟩ := hdiv
            rw [hp, hq, nav_setSub_divergent pre b a qtail ptail h.root HTree.leaf
              (fun hh => hab hh.symm), ← hp]
            exact hv
        have hT2 : replaceAt c pos (setSub HTree.leaf (pathOfIdx h.nelts) h.root) =
            setSub HTree.leaf (pathOfIdx h.nelts) h.root :=
          replace_deadend c pos _ (Or.inl hnavt1)
        rw [hT2]
        have hd1 : (siftDownAt lt pos (setSub HTree.leaf (pathOfIdx h.nelts) h.root)).1 =
            setSub HTree.leaf (pathOfIdx h.nelts) h.root := siftDownAt_none lt pos _ hnavt1
        rw [hd1, siftUp_ordered_id _ _ hordt1]
        refine ⟨⟨by rw [hshapet1]; show cshape m = cshape (h.nelts - 1); congr 1; omega,
          hordt1⟩, rfl, ?_⟩
        intro x xl xr hnav
        simp at hnav
      · -- u is the removed node or a stale position
        cases u with
        | leaf =>
          -- the path reaches an empty slot: like the none case
          have hnavt1 : navigate (setSub HTree.leaf (pathOfIdx h.nelts) h.root) pos = none ∨
              navigate (setSub HTree.leaf (pathOfIdx h.nelts) h.root) pos = some HTree.leaf := by
            rcases list_tricho pos (pathOfIdx h.nelts) with hpre | hpre | hdiv
            · obtain ⟨rest, hrest⟩ := hpre
              cases rest with
              | nil => rw [List.append_nil] at hrest; exact absurd hrest hpos
              | cons b rest' =>
                rw [← hrest] at hlast'
                obtain ⟨v2, l2, r2, hn2⟩ := nav_sub_node hlast'
                rw [hn2] at hv
                simp at hv
            · obtain ⟨rest, hrest⟩ := hpre
              cases rest with
              | nil => rw [List.append_nil] at hrest; exact absurd hrest.symm hpos
              | cons b rest' =>
                left
                rw [← hrest, nav_append, nav_setSub_self _ _ _ hlast' _]
                rfl
            · obtain ⟨pre, a, b, ptail, qtail, hab, hp, hq⟩ := hdiv
              right
              rw [hp, hq, nav_setSub_divergent pre b a qtail ptail h.root HTree.leaf
                (fun hh => hab hh.symm), ← hp]
              exact hv
          have hT2 : replaceAt c pos (setSub HTree.leaf (pathOfIdx h.nelts) h.root) =
              setSub HTree.leaf (pathOfIdx h.nelts) h.root :=
            replace_deadend c pos _ hnavt1
          rw [hT2]
          rcases hnavt1 with hnavt1 | hnavt1
          · have hd1 : (siftDownAt lt pos (setSub HTree.leaf (pathOfIdx h.nelts) h.root)).1 =
                setSub HTree.leaf (pathOfIdx h.nelts) h.root := siftDownAt_none lt pos _ hnavt1
            rw [hd1, siftUp_ordered_id _ _ hordt1]
            refine ⟨⟨by rw [hshapet1]; show cshape m = cshape (h.nelts - 1); congr 1; omega,
              hordt1⟩, rfl, ?_⟩
            intro x xl xr hnav
            simp at hnav
          · have hd := siftDownAt_eq lt pos _ _ hnavt1
            rw [hd]
            simp only [HTree.size, siftDownRoot]
            rw [setSub_of_nav _ _ _ hnavt1, siftUp_ordered_id _ _ hordt1]
            refine ⟨⟨by rw [hshapet1]; show cshape m = cshape (h.nelts - 1); congr 1; omega,
              hordt1⟩, trivial, ?_⟩
            intro x xl xr hnav
            simp at hnav
        | node x0 xl0 xr0 =>
          -- genuine removal of an interior or root node
          obtain ⟨xl', xr', hposnav1⟩ : ∃ xl' xr',
              navigate (setSub HTree.leaf (pathOfIdx h.nelts) h.root) pos =
                some (HTree.node x0 xl' xr') := by
            rcases list_tricho pos (pathOfIdx h.nelts) with hpre | hpre | hdiv
            · obtain ⟨rest, hrest⟩ := hpre
              cases rest with
              | nil => rw [List.append_nil] at hrest; exact absurd hrest hpos
              | cons b rest' =>
                have hx := nav_setSub_prefix pos b rest' h.root HTree.leaf x0 xl0 xr0 hv
                rw [hrest] at hx
                exact hx
            · obtain ⟨rest, hrest⟩ := hpre
              cases rest with
              | nil => rw [List.append_nil] at hrest; exact absurd hrest.symm hpos
              | cons b rest' =>
                exfalso
                rw [← hrest, nav_append, hlast'] at hv
                have : navigate (HTree.node c HTree.leaf HTree.leaf) (b :: rest') =
                    some (HTree.node x0 xl0 xr0) := by simpa using hv
                have h2 : navigate (HTree.leaf : HTree α) rest' =
                    some (HTree.node x0 xl0 xr0) := by
                  cases b <;> simpa [navigate] using this
                cases rest' <;> simp [navigate] at h2
            · obtain ⟨pre, a, b, ptail, qtail, hab, hp, hq⟩ := hdiv
              refine ⟨xl0, xr0, ?_⟩
              rw [hp, hq, nav_setSub_divergent pre b a qtail ptail h.root HTree.leaf
                (fun hh => hab hh.symm), ← hp]
              exact hv
          have hordu : heapOrdered lt (HTree.node x0 xl' xr') = true :=
            nav_ordered pos _ _ hordt1 hposnav1
          rcases ordered_node_iff.mp hordu with ⟨hx0l, hx0r, hoxl, hoxr⟩
          have hnavT2 : navigate (replaceAt c pos
              (setSub HTree.leaf (pathOfIdx h.nelts) h.root)) pos =
              some (HTree.node c xl' xr') := by
            rw [replaceAt_mapSub]
            have := nav_mapSub_self (replaceAt c []) pos _ _ hposnav1
            simpa [replaceAt] using this
          have hsp1 := ord_spineOk pos _ _ none hordt1 hposnav1
            (fun c2 pv _ hpv => Option.noConfusion hpv)
          obtain ⟨hqs, hqm, hqcase⟩ := siftDownRoot_spec hswo
            (HTree.size (HTree.node x0 xl' xr')) c xl' xr'
            (by
              have h1 : HTree.size (HTree.node c xl' xr') =
                  HTree.size (HTree.node x0 xl' xr') := by simp [HTree.size]
              omega)
            hoxl hoxr
          have hd := siftDownAt_eq lt pos _ _ hnavT2
          have hsz : (HTree.node c xl' xr').size = (HTree.node x0 xl' xr').size := by
            simp [HTree.size]
          rw [hsz] at hd
          rcases hqcase with ⟨hq2, hq1, hxle, hxre⟩ | ⟨hq2, hq1o, hq1b⟩
          · -- the spliced node did not move down: sift up from the splice point
            rw [hd, hq2, List.append_nil, hq1, setSub_of_nav _ _ _ hnavT2]
            have hsp2 : spineOk lt (liftOkBase lt c) pos none
                (replaceAt c pos (setSub HTree.leaf (pathOfIdx h.nelts) h.root)) := by
              rw [replaceAt_mapSub]
              refine spineOk_map (replaceAt c []) pos none _ hsp1 ?_
              rintro po s ⟨rfl, hots⟩
              rcases ordered_node_iff.mp hots.1 with ⟨hbl, hbr, _, _⟩
              refine ⟨xl', xr', rfl, hoxl, hoxr, ?_⟩
              intro cc hcc
              constructor
              · rcases hcc with hcc | hcc
                · exact rootLe_iff.mp hxle cc hcc
                · exact rootLe_iff.mp hxre cc hcc
              · intro pv hpv
                have hccx : lt cc x0 = false := by
                  rcases hcc with hcc | hcc
                  · exact rootLe_iff.mp hbl cc hcc
                  · exact rootLe_iff.mp hbr cc hcc
                exact hswo.negtrans hccx (hots.2 x0 pv rfl hpv)
            have hspec := siftUp_spec hswo c pos none _ hsp2
            have hordfin : heapOrdered lt ((siftUp lt pos
                (replaceAt c pos (setSub HTree.leaf (pathOfIdx h.nelts) h.root))).1) = true := by
              cases hmv : (siftUp lt pos
                  (replaceAt c pos (setSub HTree.leaf (pathOfIdx h.nelts) h.root))).2
              · exact (hspec.2 hmv).1
              · exact liftOkBase_ordered (hspec.1 hmv)
            refine ⟨⟨?_, hordfin⟩, rfl, ?_⟩
            · rw [siftUp_shape, shape_replace, hshapet1]
              show cshape m = cshape (h.nelts - 1)
              congr 1
              omega
            · intro x xl xr hnav
              injection hnav with hnav2
              injection hnav2 with he1 he2 he3
              subst he1
              rw [siftUp_mset]
              have hrm := replace_mset pos _ x0 xl' xr' c hposnav1
              calc x0 ::ₘ HTree.mset (replaceAt c pos
                    (setSub HTree.leaf (pathOfIdx h.nelts) h.root)) =
                  c ::ₘ HTree.mset (setSub HTree.leaf (pathOfIdx h.nelts) h.root) := hrm
                _ = HTree.mset h.root := hmsett1
          · -- the spliced node moved down: the whole tree is already ordered
            rw [hd]
            have hT3 : setSub (siftDownRoot lt (HTree.node x0 xl' xr').size
                (HTree.node c xl' xr')).1 pos
                (replaceAt c pos (setSub HTree.leaf (pathOfIdx h.nelts) h.root)) =
                mapSub (fun _ => (siftDownRoot lt (HTree.node x0 xl' xr').size
                  (HTree.node c xl' xr')).1) pos
                  (setSub HTree.leaf (pathOfIdx h.nelts) h.root) := by
              rw [replaceAt_mapSub, setSub_mapSub, setSub_mapSub_const]
            have hsp3 : spineOk lt (orderedTop lt) pos none
                (mapSub (fun _ => (siftDownRoot lt (HTree.node x0 xl' xr').size
                  (HTree.node c xl' xr')).1) pos
                  (setSub HTree.leaf (pathOfIdx h.nelts) h.root)) := by
              refine spineOk_map _ pos none _ hsp1 ?_
              rintro po s ⟨rfl, hots⟩
              rcases ordered_node_iff.mp hots.1 with ⟨hbl, hbr, _, _⟩
              refine ⟨hq1o, ?_⟩
              intro c2 pv hc2 hpv
              refine hq1b pv ?_ c2 hc2
              intro cc hcc
              have hccx : lt cc x0 = false := by
                rcases hcc with hcc | hcc
                · exact rootLe_iff.mp hbl cc hcc
                · exact rootLe_iff.mp hbr cc hcc
              exact hswo.negtrans hccx (hots.2 x0 pv rfl hpv)
            have hordT3 := (spineOk_ordered pos none _ hsp3).1
            rw [← hT3] at hordT3
            rw [siftUp_ordered_id _ _ hordT3]
            have hmT3 : HTree.mset (setSub (siftDownRoot lt (HTree.node x0 xl' xr').size
                (HTree.node c xl' xr')).1 pos
                (replaceAt c pos (setSub HTree.leaf (pathOfIdx h.nelts) h.root))) =
                HTree.mset (replaceAt c pos (setSub HTree.leaf (pathOfIdx h.nelts) h.root)) := by
              have hms := mset_setSub pos _ _ ((siftDownRoot lt (HTree.node x0 xl' xr').size
                (HTree.node c xl' xr')).1) hnavT2
              rw [hqm] at hms
              exact add_right_cancel hms
            refine ⟨⟨?_, hordT3⟩, rfl, ?_⟩
            · rw [shape_setSub]
              have hnv2 : navigate (HTree.shape (replaceAt c pos
                  (setSub HTree.leaf (pathOfIdx h.nelts) h.root))) pos =
                  some (HTree.shape (HTree.node c xl' xr')) := by
                rw [nav_shape, hnavT2]
                rfl
              rw [hqs, setSub_of_nav _ _ _ hnv2, shape_replace, hshapet1]
              show cshape m = cshape (h.nelts - 1)
              congr 1
              omega
            · intro x xl xr hnav
              injection hnav with hnav2
              injection hnav2 with he1 he2 he3
              subst he1
              rw [hmT3]
              have hrm := replace_mset pos _ x0 xl' xr' c hposnav1
              calc x0 ::ₘ HTree.mset (replaceAt c pos
                    (setSub HTree.leaf (pathOfIdx h.nelts) h.root)) =
                  c ::ₘ HTree.mset (setSub HTree.leaf (pathOfIdx h.nelts) h.root) := hrm
                _ = HTree.mset h.root := hmsett1

/-!
## Lemmas: invariant under arbitrary operation sequences, min correctness
-/

theorem runOps_inv {α : Type} {lt : α → α → Bool} (hswo : IsSWO lt) :
    ∀ (ops : List (HeapOp α)) (h : Heap α), heapInv lt h →
      heapInv lt (ops.foldl (applyOp lt) h) := by
  intro ops
  induction ops with
  | nil => intro h hI; exact hI
  | cons op ops ih =>
    intro h hI
    cases op with
    | insert x => exact ih _ (heap_insert_spec hswo h x hI).1
    | remove pos => exact ih _ (heap_remove_spec hswo h pos hI).1

theorem cshape_leaf_iff {n : Nat} : cshape n = HTree.leaf ↔ n = 0 := by
  constructor
  · intro h
    by_contra hne
    obtain ⟨l, r, hnode⟩ := cshape_isnode (n := n) (by omega)
    rw [hnode] at h
    exact HTree.noConfusion h
  · intro h
    subst h
    rfl

theorem heap_min_none_iff {α : Type} {lt : α → α → Bool} {h : Heap α}
    (hI : heapInv lt h) : heap_min h = none ↔ h.nelts = 0 := by
  obtain ⟨hshape, _⟩ := hI
  constructor
  · intro hm
    cases hr : h.root with
    | leaf =>
      rw [hr] at hshape
      have : cshape h.nelts = HTree.leaf := hshape.symm
      exact cshape_leaf_iff.mp this
    | node v l r =>
      rw [show heap_min h = HTree.rootVal h.root from rfl, hr] at hm
      exact Option.noConfusion hm
  · intro hn
    rw [hn] at hshape
    have : h.root = HTree.leaf := shape_leaf_iff.mp hshape
    rw [show heap_min h = HTree.rootVal h.root from rfl, this]
    rfl

theorem heap_min_least {α : Type} {lt : α → α → Bool} (hswo : IsSWO lt) {h : Heap α}
    (hI : heapInv lt h) :
    ∀ y ∈ HTree.mset h.root, ∀ mv, heap_min h = some mv → lt y mv = false := by
  intro y hy mv hmv
  exact ordered_min hswo h.root hI.2 y hy mv hmv

theorem heap_min_mem {α : Type} {h : Heap α} {id : α}
    (hm : heap_min h = some id) : id ∈ HTree.mset h.root := by
  cases hr : h.root with
  | leaf =>
    rw [show heap_min h = HTree.rootVal h.root from rfl, hr] at hm
    exact Option.noConfusion hm
  | node v l r =>
    rw [show heap_min h = HTree.rootVal h.root from rfl, hr] at hm
    injection hm with hm2
    rw [← hm2]
    simp [HTree.mset]

/-!
## Lemmas: the timer comparator
-/

theorem timer_less_than_iff (a b : uv_timer_t) :
    timer_less_than a b = true ↔
      (a.timeout < b.timeout ∨ (a.timeout = b.timeout ∧ a.start_id < b.start_id)) := by
  unfold timer_less_than
  split_ifs with h1 h2
  · simp [h1]
  · simp
    omega
  · simp
    omega

theorem timerLT_SWO (timers : Nat → uv_timer_t) : IsSWO (timerLT timers) := by
  refine ⟨?_, ?_, ?_⟩
  · intro a
    cases hv : timerLT timers a a
    · rfl
    · have := (timer_less_than_iff (timers a) (timers a)).mp hv
      omega
  · intro a b c hab hbc
    have h1 := (timer_less_than_iff (timers a) (timers b)).mp hab
    have h2 := (timer_less_than_iff (timers b) (timers c)).mp hbc
    exact (timer_less_than_iff (timers a) (timers c)).mpr (by omega)
  · intro a b c hac
    have h1 := (timer_less_than_iff (timers a) (timers c)).mp hac
    by_cases hab : timerLT timers a b = true
    · exact Or.inl hab
    · refine Or.inr ((timer_less_than_iff (timers b) (timers c)).mpr ?_)
      have h2 : ¬ (timers a).timeout < (timers b).timeout ∧
          ¬ ((timers a).timeout = (timers b).timeout ∧
            (timers a).start_id < (timers b).start_id) := by
        constructor
        · intro hc
          exact hab ((timer_less_than_iff _ _).mpr (Or.inl hc))
        · intro hc
          exact hab ((timer_less_than_iff _ _).mpr (Or.inr hc))
      omega

theorem timer_less_than_ext {a a' b b' : uv_timer_t}
    (ha1 : a.timeout = a'.timeout) (ha2 : a.start_id = a'.start_id)
    (hb1 : b.timeout = b'.timeout) (hb2 : b.start_id = b'.start_id) :
    timer_less_than a b = timer_less_than a' b' := by
  unfold timer_less_than
  rw [ha1, ha2, hb1, hb2]

theorem timerLT_congr {m1 m2 : Nat → uv_timer_t}
    (h : ∀ i, (m1 i).timeout = (m2 i).timeout ∧ (m1 i).start_id = (m2 i).start_id) :
    timerLT m1 = timerLT m2 := by
  funext x y
  exact timer_less_than_ext (h x).1 (h x).2 (h y).1 (h y).2

theorem findPos_sound {α : Type} [DecidableEq α] (x : α) :
    ∀ (t : HTree α) (bs : List Bool), findPos x t = some bs →
      ∃ l r, navigate t bs = some (HTree.node x l r) := by
  intro t
  induction t with
  | leaf => intro bs h; simp [findPos] at h
  | node v l r ihl ihr =>
    intro bs h
    by_cases hv : v = x
    · subst hv
      simp only [findPos, if_pos rfl] at h
      injection h with h2
      subst h2
      exact ⟨l, r, rfl⟩
    · simp only [findPos, if_neg hv] at h
      rcases hfl : findPos x l with _ | bs2 <;> rw [hfl] at h
      · rcases hfr : findPos x r with _ | bs3 <;> rw [hfr] at h
        · exact Option.noConfusion h
        · injection h with h2
          subst h2
          obtain ⟨l2, r2, hn⟩ := ihr bs3 hfr
          exact ⟨l2, r2, by simpa [navigate] using hn⟩
      · injection h with h2
        subst h2
        obtain ⟨l2, r2, hn⟩ := ihl bs2 hfl
        exact ⟨l2, r2, by simpa [navigate] using hn⟩

theorem findPos_complete {α : Type} [DecidableEq α] (x : α) :
    ∀ t : HTree α, x ∈ HTree.mset t → ∃ bs, findPos x t = some bs := by
  intro t
  induction t with
  | leaf => intro hx; simp [HTree.mset] at hx
  | node v l r ihl ihr =>
    intro hx
    by_cases hv : v = x
    · exact ⟨[], by simp [findPos, hv]⟩
    · simp only [HTree.mset, Multiset.mem_cons, Multiset.mem_add] at hx
      rcases hx with rfl | hx | hx
      · exact absurd rfl hv
      · obtain ⟨bs2, hfl⟩ := ihl hx
        exact ⟨false :: bs2, by simp [findPos, hv, hfl]⟩
      · obtain ⟨bs3, hfr⟩ := ihr hx
        rcases hfl : findPos x l with _ | bs2
        · exact ⟨true :: bs3, by simp [findPos, hv, hfl, hfr]⟩
        · exact ⟨false :: bs2, by simp [findPos, hv, hfl]⟩

theorem findPos_spec {α : Type} [DecidableEq α] (x : α) (t : HTree α)
    (hx : x ∈ HTree.mset t) :
    ∃ bs l r, findPos x t = some bs ∧ navigate t bs = some (HTree.node x l r) := by
  obtain ⟨bs, hf⟩ := findPos_complete x t hx
  obtain ⟨l, r, hn⟩ := findPos_sound x t bs hf
  exact ⟨bs, l, r, hf, hn⟩

/-!
## Lemmas: uv_timer_stop and uv_timer_start state specifications
-/

theorem uv_timer_stop_inactive {st : LoopState} {handle : Nat}
    (h : (st.timers handle).active = false) : uv_timer_stop st handle = (0, st) := by
  simp [uv_timer_stop, uv__is_active, h]

theorem uv_timer_stop_spec (st : LoopState) (handle : Nat) (hT : TInv st)
    (hact : (st.timers handle).active = true) :
    (uv_timer_stop st handle).1 = 0 ∧
    (uv_timer_stop st handle).2.timers handle = uv__handle_stop (st.timers handle) ∧
    (∀ id, id ≠ handle → (uv_timer_stop st handle).2.timers id = st.timers id) ∧
    (uv_timer_stop st handle).2.loop.timer_counter = st.loop.timer_counter ∧
    (uv_timer_stop st handle).2.loop.time = st.loop.time ∧
    handle ::ₘ HTree.mset (uv_timer_stop st handle).2.loop.timer_heap.root =
      HTree.mset st.loop.timer_heap.root ∧
    handle ∉ HTree.mset (uv_timer_stop st handle).2.loop.timer_heap.root ∧
    (uv_timer_stop st handle).2.loop.timer_heap.nelts =
      st.loop.timer_heap.nelts - 1 ∧
    TInv (uv_timer_stop st handle).2 := by
  obtain ⟨hInv, hnd, hmemiff, hflags⟩ := hT
  have hmem : handle ∈ HTree.mset st.loop.timer_heap.root := (hmemiff handle).mp hact
  obtain ⟨bs, bl, br, hf, hn⟩ := findPos_spec handle st.loop.timer_heap.root hmem
  have h1 : (uv_timer_stop st handle).1 = 0 := by
    simp [uv_timer_stop, uv__is_active, hact]
  have hheap : (uv_timer_stop st handle).2.loop.timer_heap =
      heap_remove (timerLT st.timers) st.loop.timer_heap bs := by
    simp [uv_timer_stop, uv__is_active, hact, hf, setTimer]
  have htimers : (uv_timer_stop st handle).2.timers =
      fun i => if i = handle then uv__handle_stop (st.timers handle) else st.timers i := by
    simp [uv_timer_stop, uv__is_active, hact, hf, setTimer]
  have hcounter : (uv_timer_stop st handle).2.loop.timer_counter =
      st.loop.timer_counter := by
    simp [uv_timer_stop, uv__is_active, hact, hf, setTimer]
  have htime : (uv_timer_stop st handle).2.loop.time = st.loop.time := by
    simp [uv_timer_stop, uv__is_active, hact, hf, setTimer]
  have hrm := heap_remove_spec (timerLT_SWO st.timers) st.loop.timer_heap bs hInv
  have hmeq : handle ::ₘ
      HTree.mset (uv_timer_stop st handle).2.loop.timer_heap.root =
      HTree.mset st.loop.timer_heap.root := by
    rw [hheap]
    exact hrm.2.2 handle bl br hn
  have hndnew : (handle ::ₘ
      HTree.mset (uv_timer_stop st handle).2.loop.timer_heap.root).Nodup := by
    rw [hmeq]; exact hnd
  have hnotmem : handle ∉
      HTree.mset (uv_timer_stop st handle).2.loop.timer_heap.root :=
    (Multiset.nodup_cons.mp hndnew).1
  have hcong : timerLT (uv_timer_stop st handle).2.timers = timerLT st.timers := by
    rw [htimers]
    apply timerLT_congr
    intro i
    by_cases hi : i = handle <;> simp [hi, uv__handle_stop]
  refine ⟨h1, by rw [htimers]; simp, fun id hid => by rw [htimers]; simp [hid],
    hcounter, htime, hmeq, hnotmem, by rw [hheap]; exact hrm.2.1, ?_, ?_, ?_, ?_⟩
  · rw [hcong, hheap]
    exact hrm.1
  · exact (Multiset.nodup_cons.mp hndnew).2
  · intro id
    rw [htimers]
    by_cases hid : id = handle
    · subst hid
      simp [uv__handle_stop, hnotmem]
    · simp only [if_neg hid]
      rw [hmemiff id]
      constructor
      · intro hin
        rw [← hmeq] at hin
        rcases Multiset.mem_cons.mp hin with h2 | h2
        · exact absurd h2 hid
        · exact h2
      · intro hin
        rw [← hmeq]
        exact Multiset.mem_cons_of_mem hin
  · intro id hid2
    have hidne : id ≠ handle := by
      intro hh
      subst hh
      exact hnotmem hid2
    have hidold : id ∈ HTree.mset st.loop.timer_heap.root := by
      rw [← hmeq]
      exact Multiset.mem_cons_of_mem hid2
    have := hflags id hidold
    rw [htimers]
    simpa [hidne] using this

theorem heapInv_congr {α : Type} {lt1 lt2 : α → α → Bool} {h : Heap α}
    (hI : heapInv lt1 h)
    (hagree : ∀ x ∈ HTree.mset h.root, ∀ y ∈ HTree.mset h.root, lt1 x y = lt2 x y) :
    heapInv lt2 h := by
  refine ⟨hI.1, ?_⟩
  rw [← ordered_congr h.root hagree]
  exact hI.2

theorem uv_timer_start_restart (st : LoopState) (handle : Nat) (cbv : Nat)
    (timeout rep : Nat) (hT : TInv st)
    (hncl : (st.timers handle).closing = false)
    (hact : (st.timers handle).active = true) :
    uv_timer_start st handle (some cbv) timeout rep =
      uv_timer_start (uv_timer_stop st handle).2 handle (some cbv) timeout rep := by
  have hstop := uv_timer_stop_spec st handle hT hact
  have hsh := hstop.2.1
  simp only [uv_timer_start, uv__is_closing, uv__is_active, hsh, uv__handle_stop,
    hncl, hact, if_pos rfl, Bool.false_or]
  simp

theorem uv_timer_start_spec_inactive (st : LoopState) (handle cbv timeout rep : Nat)
    (hT : TInv st) (hncl : (st.timers handle).closing = false)
    (hinact : (st.timers handle).active = false) :
    (uv_timer_start st handle (some cbv) timeout rep).1 = 0 ∧
    (uv_timer_start st handle (some cbv) timeout rep).2.timers handle =
      { timer_cb := some cbv,
        timeout := if (st.loop.time + timeout) % 2 ^ 64 < timeout then UINT64_MAX
          else (st.loop.time + timeout) % 2 ^ 64,
        repeat_ := rep, start_id := st.loop.timer_counter,
        active := true, closing := false } ∧
    (∀ id, id ≠ handle →
      (uv_timer_start st handle (some cbv) timeout rep).2.timers id = st.timers id) ∧
    (uv_timer_start st handle (some cbv) timeout rep).2.loop.timer_counter =
      (st.loop.timer_counter + 1) % 2 ^ 64 ∧
    (uv_timer_start st handle (some cbv) timeout rep).2.loop.time = st.loop.time ∧
    handle ∈ HTree.mset
      (uv_timer_start st handle (some cbv) timeout rep).2.loop.timer_heap.root ∧
    TInv (uv_timer_start st handle (some cbv) timeout rep).2 := by
  obtain ⟨hInv, hnd, hmemiff, hflags⟩ := hT
  have hnm : handle ∉ HTree.mset st.loop.timer_heap.root := by
    intro hmem
    rw [← hmemiff handle] at hmem
    rw [hinact] at hmem
    exact Bool.false_ne_true hmem
  have hA : (uv_timer_start st handle (some cbv) timeout rep).1 = 0 := by
    simp [uv_timer_start, uv__is_closing, hncl, uv__is_active, hinact]
  have htimersfun : (uv_timer_start st handle (some cbv) timeout rep).2.timers =
      fun i => if i = handle then
        { timer_cb := some cbv,
          timeout := if (st.loop.time + timeout) % 2 ^ 64 < timeout then UINT64_MAX
            else (st.loop.time + timeout) % 2 ^ 64,
          repeat_ := rep, start_id := st.loop.timer_counter,
          active := true, closing := false }
        else st.timers i := by
    funext i
    by_cases hi : i = handle
    · subst hi
      simp [uv_timer_start, uv__is_closing, hncl, uv__is_active, hinact, setTimer,
        uv__handle_start]
    · simp [uv_timer_start, uv__is_closing, hncl, uv__is_active, hinact, setTimer,
        uv__handle_start, hi]
  have hcounter : (uv_timer_start st handle (some cbv) timeout rep).2.loop.timer_counter =
      (st.loop.timer_counter + 1) % 2 ^ 64 := by
    simp [uv_timer_start, uv__is_closing, hncl, uv__is_active, hinact, setTimer]
  have htime : (uv_timer_start st handle (some cbv) timeout rep).2.loop.time =
      st.loop.time := by
    simp [uv_timer_start, uv__is_closing, hncl, uv__is_active, hinact, setTimer]
  have hheap : (uv_timer_start st handle (some cbv) timeout rep).2.loop.timer_heap =
      heap_insert (timerLT (fun i => if i = handle then
          { timer_cb := some cbv,
            timeout := if (st.loop.time + timeout) % 2 ^ 64 < timeout then UINT64_MAX
                else (st.loop.time + timeout) % 2 ^ 64,
            repeat_ := rep, start_id := st.loop.timer_counter,
            active := (st.timers handle).active,
            closing := (st.timers handle).closing }
        else st.timers i)) st.loop.timer_heap handle := by
    simp [uv_timer_start, uv__is_closing, hncl, uv__is_active, hinact, setTimer]
  have hcomp : timerLT (fun i => if i = handle then
      { timer_cb := some cbv,
        timeout := if (st.loop.time + timeout) % 2 ^ 64 < timeout then UINT64_MAX
            else (st.loop.time + timeout) % 2 ^ 64,
        repeat_ := rep, start_id := st.loop.timer_counter,
        active := (st.timers handle).active,
        closing := (st.timers handle).closing }
      else st.timers i) =
      timerLT ((uv_timer_start st handle (some cbv) timeout rep).2.timers) := by
    rw [htimersfun]
    apply timerLT_congr
    intro i
    by_cases hi : i = handle <;> simp [hi]
  rw [hcomp] at hheap
  have hInv2 : heapInv (timerLT
      ((uv_timer_start st handle (some cbv) timeout rep).2.timers))
      st.loop.timer_heap := by
    apply heapInv_congr hInv
    intro x hx y hy
    have hxh : x ≠ handle := fun hh => hnm (hh ▸ hx)
    have hyh : y ≠ handle := fun hh => hnm (hh ▸ hy)
    rw [htimersfun]
    simp [timerLT, hxh, hyh]
  have hins := heap_insert_spec (timerLT_SWO _) st.loop.timer_heap handle hInv2
  have hmset : HTree.mset
      (uv_timer_start st handle (some cbv) timeout rep).2.loop.timer_heap.root =
      handle ::ₘ HTree.mset st.loop.timer_heap.root := by
    rw [hheap]
    exact hins.2.2
  refine ⟨hA, by rw [htimersfun]; simp, fun id hid => by rw [htimersfun]; simp [hid],
    hcounter, htime, by rw [hmset]; simp, ?_, ?_, ?_, ?_⟩
  · rw [hheap]
    exact hins.1
  · rw [hmset]
    exact Multiset.nodup_cons.mpr ⟨hnm, hnd⟩
  · intro id
    rw [htimersfun, hmset]
    by_cases hid : id = handle
    · subst hid
      simp
    · simp only [if_neg hid, Multiset.mem_cons]
      rw [hmemiff id]
      simp [hid]
  · intro id hid
    rw [hmset, Multiset.mem_cons] at hid
    rw [htimersfun]
    rcases hid with rfl | hid
    · simp
    · have hidne : id ≠ handle := fun hh => hnm (hh ▸ hid)
      simp only [if_neg hidne]
      exact hflags id hid

theorem uv_timer_start_spec (st : LoopState) (handle cbv timeout rep : Nat)
    (hT : TInv st) (hncl : (st.timers handle).closing = false) :
    (uv_timer_start st handle (some cbv) timeout rep).1 = 0 ∧
    (uv_timer_start st handle (some cbv) timeout rep).2.timers handle =
      { timer_cb := some cbv,
        timeout := if (st.loop.time + timeout) % 2 ^ 64 < timeout then UINT64_MAX
          else (st.loop.time + timeout) % 2 ^ 64,
        repeat_ := rep, start_id := st.loop.timer_counter,
        active := true, closing := false } ∧
    (∀ id, id ≠ handle →
      (uv_timer_start st handle (some cbv) timeout rep).2.timers id = st.timers id) ∧
    (uv_timer_start st handle (some cbv) timeout rep).2.loop.timer_counter =
      (st.loop.timer_counter + 1) % 2 ^ 64 ∧
    (uv_timer_start st handle (some cbv) timeout rep).2.loop.time = st.loop.time ∧
    handle ∈ HTree.mset
      (uv_timer_start st handle (some cbv) timeout rep).2.loop.timer_heap.root ∧
    TInv (uv_timer_start st handle (some cbv) timeout rep).2 := by
  by_cases hact : (st.timers handle).active = true
  · have hstop := uv_timer_stop_spec st handle hT hact
    obtain ⟨_, hsh, hso, hsc, hst, _, _, _, hsT⟩ := hstop
    have hncl0 : ((uv_timer_stop st handle).2.timers handle).closing = false := by
      rw [hsh]
      simpa [uv__handle_stop] using hncl
    have hinact0 : ((uv_timer_stop st handle).2.timers handle).active = false := by
      rw [hsh]
      simp [uv__handle_stop]
    have hspec := uv_timer_start_spec_inactive (uv_timer_stop st handle).2 handle cbv
      timeout rep hsT hncl0 hinact0
    rw [uv_timer_start_restart st handle cbv timeout rep hT hncl hact]
    rw [hst, hsc] at hspec
    obtain ⟨a, b, c, d, e, f, g⟩ := hspec
    refine ⟨a, b, ?_, d, e, f, g⟩
    intro id hid
    rw [c id hid, hso id hid]
  · have hinact : (st.timers handle).active = false := by
      cases hv : (st.timers handle).active
      · rfl
      · exact absurd hv hact
    exact uv_timer_start_spec_inactive st handle cbv timeout rep hT hncl hinact

/-!
## Lemmas: uv_timer_again
-/

theorem uv_timer_again_none {st : LoopState} {handle : Nat}
    (h : (st.timers handle).timer_cb = none) :
    uv_timer_again st handle = (UV_EINVAL, st) := by
  simp [uv_timer_again, h]

theorem uv_timer_again_zero {st : LoopState} {handle c : Nat}
    (hc : (st.timers handle).timer_cb = some c)
    (hr : (st.timers handle).repeat_ = 0) :
    uv_timer_again st handle = (0, st) := by
  simp [uv_timer_again, hc, hr]

theorem uv_timer_again_pos_spec (st : LoopState) (handle c : Nat) (hT : TInv st)
    (hc : (st.timers handle).timer_cb = some c)
    (hr : (st.timers handle).repeat_ ≠ 0)
    (hncl : (st.timers handle).closing = false) :
    (uv_timer_again st handle).1 = 0 ∧
    (uv_timer_again st handle).2.timers handle =
      { timer_cb := some c,
        timeout := if (st.loop.time + (st.timers handle).repeat_) % 2 ^ 64 <
            (st.timers handle).repeat_ then UINT64_MAX
          else (st.loop.time + (st.timers handle).repeat_) % 2 ^ 64,
        repeat_ := (st.timers handle).repeat_, start_id := st.loop.timer_counter,
        active := true, closing := false } ∧
    (∀ id, id ≠ handle → (uv_timer_again st handle).2.timers id = st.timers id) ∧
    (uv_timer_again st handle).2.loop.timer_counter =
      (st.loop.timer_counter + 1) % 2 ^ 64 ∧
    (uv_timer_again st handle).2.loop.time = st.loop.time ∧
    handle ∈ HTree.mset (uv_timer_again st handle).2.loop.timer_heap.root ∧
    TInv (uv_timer_again st handle).2 := by
  have hres : uv_timer_again st handle =
      (0, (uv_timer_start (uv_timer_stop st handle).2 handle (some c)
        (((uv_timer_stop st handle).2.timers handle).repeat_)
        (((uv_timer_stop st handle).2.timers handle).repeat_)).2) := by
    simp [uv_timer_again, hc, hr]
  by_cases hact : (st.timers handle).active = true
  · have hstop := uv_timer_stop_spec st handle hT hact
    obtain ⟨_, hsh, hso, hsc, hst, _, _, _, hsT⟩ := hstop
    have hrep0 : ((uv_timer_stop st handle).2.timers handle).repeat_ =
        (st.timers handle).repeat_ := by
      rw [hsh]
      rfl
    have hncl0 : ((uv_timer_stop st handle).2.timers handle).closing = false := by
      rw [hsh]
      simpa [uv__handle_stop] using hncl
    have hspec := uv_timer_start_spec (uv_timer_stop st handle).2 handle c
      (((uv_timer_stop st handle).2.timers handle).repeat_)
      (((uv_timer_stop st handle).2.timers handle).repeat_) hsT hncl0
    rw [hrep0, hst, hsc] at hspec
    obtain ⟨a, b, c2, d, e, f, g⟩ := hspec
    rw [hres, hrep0]
    exact ⟨rfl, b, fun id hid => by rw [c2 id hid, hso id hid], d, e, f, g⟩
  · have hinact : (st.timers handle).active = false := by
      cases hv : (st.timers handle).active
      · rfl
      · exact absurd hv hact
    have hstop : uv_timer_stop st handle = (0, st) := uv_timer_stop_inactive hinact
    rw [hstop] at hres
    have hspec := uv_timer_start_spec st handle c ((st.timers handle).repeat_)
      ((st.timers handle).repeat_) hT hncl
    obtain ⟨a, b, c2, d, e, f, g⟩ := hspec
    rw [hres]
    exact ⟨rfl, b, fun id hid => c2 id hid, d, e, f, g⟩

/-!
## Lemmas: uv__run_timers control flow
-/

theorem run_timers_empty {st : LoopState}
    (h : heap_min st.loop.timer_heap = none) :
    ∀ fuel, uv__run_timers fuel st = (st, []) := by
  intro fuel
  cases fuel <;> simp [uv__run_timers, h]

theorem run_timers_future {st : LoopState} {id : Nat}
    (h : heap_min st.loop.timer_heap = some id)
    (hlt : st.loop.time < (st.timers id).timeout) :
    ∀ fuel, uv__run_timers fuel st = (st, []) := by
  intro fuel
  cases fuel <;> simp [uv__run_timers, h, hlt]

theorem run_timers_step {st : LoopState} {id : Nat} (fuel : Nat)
    (h : heap_min st.loop.timer_heap = some id)
    (hdue : (st.timers id).timeout ≤ st.loop.time) :
    uv__run_timers (fuel + 1) st =
      ((uv__run_timers fuel ((uv_timer_again ((uv_timer_stop st id).2) id).2)).1,
        id :: (uv__run_timers fuel ((uv_timer_again ((uv_timer_stop st id).2) id).2)).2) := by
  have hnlt : ¬ st.loop.time < (st.timers id).timeout := by omega
  simp [uv__run_timers, h, hnlt]

theorem occupied_inv {α : Type} {lt : α → α → Bool} {h : Heap α}
    (hI : heapInv lt h) (i : Nat) (hi : 1 ≤ i) :
    occupied h.root i = true ↔ i ≤ h.nelts := by
  rw [← occupied_shape, hI.1]
  exact occupied_cshape hi

/-!
## Helper lemmas assembled by the claim theorems
-/

theorem natLT_SWO : IsSWO (fun a b : Nat => decide (a < b)) := by
  refine ⟨fun a => by simp, fun a b c hab hbc => ?_, fun a b c hac => ?_⟩
  · simp only [decide_eq_true_eq] at hab hbc ⊢
    omega
  · simp only [decide_eq_true_eq] at hac ⊢
    omega

theorem TInv_initLoopState : TInv initLoopState := by
  refine ⟨⟨rfl, rfl⟩, ?_, ?_, ?_⟩
  · simp [initLoopState, heap_init, HTree.mset]
  · intro id
    simp [initLoopState, heap_init, HTree.mset, uv_timer_init]
  · intro id hid
    simp [initLoopState, heap_init, HTree.mset] at hid

theorem uv_timer_stop_frame (st : LoopState) (handle id : Nat) (hid : id ≠ handle) :
    (uv_timer_stop st handle).2.timers id = st.timers id := by
  by_cases hact : uv__is_active (st.timers handle) = true <;>
    simp [uv_timer_stop, hact, setTimer, hid]

theorem uv_timer_start_frame (st : LoopState) (handle : Nat) (cb : Option Nat)
    (timeout rep id : Nat) (hid : id ≠ handle) :
    (uv_timer_start st handle cb timeout rep).2.timers id = st.timers id := by
  by_cases hcl : (uv__is_closing (st.timers handle) || cb.isNone) = true
  · simp [uv_timer_start, hcl]
  · by_cases hact : uv__is_active (st.timers handle) = true
    · simp [uv_timer_start, hcl, hact, setTimer, hid,
        uv_timer_stop_frame st handle id hid]
    · simp [uv_timer_start, hcl, hact, setTimer, hid]

theorem uv_timer_again_frame (st : LoopState) (handle id : Nat) (hid : id ≠ handle) :
    (uv_timer_again st handle).2.timers id = st.timers id := by
  cases hcb : (st.timers handle).timer_cb with
  | none =>
    rw [uv_timer_again_none hcb]
  | some c =>
    by_cases hr : (st.timers handle).repeat_ ≠ 0
    · have hred : uv_timer_again st handle =
          (0, (uv_timer_start (uv_timer_stop st handle).2 handle (some c)
            (((uv_timer_stop st handle).2.timers handle).repeat_)
            (((uv_timer_stop st handle).2.timers handle).repeat_)).2) := by
        simp [uv_timer_again, hcb, hr]
      rw [hred]
      rw [show ((0 : Int), (uv_timer_start (uv_timer_stop st handle).2 handle (some c)
            (((uv_timer_stop st handle).2.timers handle).repeat_)
            (((uv_timer_stop st handle).2.timers handle).repeat_)).2).2 =
          (uv_timer_start (uv_timer_stop st handle).2 handle (some c)
            (((uv_timer_stop st handle).2.timers handle).repeat_)
            (((uv_timer_stop st handle).2.timers handle).repeat_)).2 from rfl]
      rw [uv_timer_start_frame (uv_timer_stop st handle).2 handle (some c)
        (((uv_timer_stop st handle).2.timers handle).repeat_)
        (((uv_timer_stop st handle).2.timers handle).repeat_) id hid,
        uv_timer_stop_frame st handle id hid]
    · push_neg at hr
      rw [uv_timer_again_zero hcb hr]

theorem nav_open_slot {α : Type} {lt : α → α → Bool} {h : Heap α} (hI : heapInv lt h) :
    navigate h.root (pathOfIdx (1 + h.nelts)) = some HTree.leaf := by
  have hx : navigate h.root (pathOfIdx (h.nelts + 1)) = some HTree.leaf := by
    apply nav_shape_leaf
    rw [hI.1]
    exact cshape_valid h.nelts
  have he : 1 + h.nelts = h.nelts + 1 := by omega
  rw [he]
  exact hx

theorem stop_again_fresh (st : LoopState) (id c : Nat) (hT : TInv st)
    (hc : (st.timers id).timer_cb = some c)
    (hr : (st.timers id).repeat_ ≠ 0)
    (hncl : (st.timers id).closing = false) :
    id ∈ HTree.mset ((uv_timer_again (uv_timer_stop st id).2 id).2).loop.timer_heap.root ∧
    (((uv_timer_again (uv_timer_stop st id).2 id).2).timers id).start_id =
      st.loop.timer_counter ∧
    (((uv_timer_again (uv_timer_stop st id).2 id).2).timers id).active = true ∧
    (((uv_timer_again (uv_timer_stop st id).2 id).2).timers id).repeat_ =
      (st.timers id).repeat_ ∧
    ((uv_timer_again (uv_timer_stop st id).2 id).2).loop.time = st.loop.time ∧
    TInv ((uv_timer_again (uv_timer_stop st id).2 id).2) := by
  by_cases hact : (st.timers id).active = true
  · obtain ⟨_, hsh, hso, hsc, hst, _, _, _, hsT⟩ := uv_timer_stop_spec st id hT hact
    have hc1 : ((uv_timer_stop st id).2.timers id).timer_cb = some c := by
      rw [hsh]
      simpa [uv__handle_stop] using hc
    have hr1 : ((uv_timer_stop st id).2.timers id).repeat_ ≠ 0 := by
      rw [hsh]
      simpa [uv__handle_stop] using hr
    have hn1 : ((uv_timer_stop st id).2.timers id).closing = false := by
      rw [hsh]
      simpa [uv__handle_stop] using hncl
    obtain ⟨_, hrec, _, _, htime, hmem, hTI⟩ :=
      uv_timer_again_pos_spec (uv_timer_stop st id).2 id c hsT hc1 hr1 hn1
    refine ⟨hmem, ?_, ?_, ?_, by rw [htime, hst], hTI⟩
    · rw [hrec]
      exact hsc
    · rw [hrec]
    · rw [hrec, hsh]
      rfl
  · have hinact : (st.timers id).active = false := by
      cases hv : (st.timers id).active
      · rfl
      · exact absurd hv hact
    have hstop2 : (uv_timer_stop st id).2 = st := by
      rw [uv_timer_stop_inactive hinact]
    rw [hstop2]
    obtain ⟨_, hrec, _, _, htime, hmem, hTI⟩ :=
      uv_timer_again_pos_spec st id c hT hc hr hncl
    refine ⟨hmem, ?_, ?_, ?_, htime, hTI⟩
    · rw [hrec]
    · rw [hrec]
    · rw [hrec]

theorem TInv_setLoopTime (st : LoopState) (t : Nat) (hT : TInv st) :
    TInv (setLoopTime st t) := hT

theorem heap_insert_eq {α : Type} (lt : α → α → Bool) (h : Heap α) (x : α) :
    heap_insert lt h x =
      { root := (siftUp lt (pathOfIdx (1 + h.nelts))
          (insertAt x (pathOfIdx (1 + h.nelts)) h.root)).1,
        nelts := h.nelts + 1 } := by
  show ({ root := (siftUp lt (decodePath (heap_path (1 + h.nelts)).1
              (heap_path (1 + h.nelts)).2)
            (insertAt x (decodePath (heap_path (1 + h.nelts)).1
              (heap_path (1 + h.nelts)).2) h.root)).1,
          nelts := h.nelts + 1 } : Heap α) = _
  rw [heap_path_decode]

theorem heap_remove_eq_last {α : Type} (lt : α → α → Bool) (h : Heap α)
    (pos : List Bool) (hn : h.nelts ≠ 0) (hpos : pos = pathOfIdx h.nelts) :
    heap_remove lt h pos =
      { root := (unlinkAt (pathOfIdx h.nelts) h.root).1, nelts := h.nelts - 1 } := by
  unfold heap_remove
  rw [if_neg hn]
  show (if pos = decodePath (heap_path h.nelts).1 (heap_path h.nelts).2 then _
    else _) = _
  rw [heap_path_decode, if_pos hpos]

theorem heap_remove_eq_splice {α : Type} (lt : α → α → Bool) (h : Heap α)
    (pos : List Bool) (child : α) (hn : h.nelts ≠ 0)
    (hpos : pos ≠ pathOfIdx h.nelts)
    (hchild : (unlinkAt (pathOfIdx h.nelts) h.root).2 = some child) :
    heap_remove lt h pos =
      { root := (siftUp lt
          (siftDownAt lt pos
            (replaceAt child pos (unlinkAt (pathOfIdx h.nelts) h.root).1)).2
          (siftDownAt lt pos
            (replaceAt child pos (unlinkAt (pathOfIdx h.nelts) h.root).1)).1).1,
        nelts := h.nelts - 1 } := by
  unfold heap_remove
  rw [if_neg hn]
  show (if pos = decodePath (heap_path h.nelts).1 (heap_path h.nelts).2 then _
    else _) = _
  rw [heap_path_decode, if_neg hpos, hchild]

theorem heap_remove_singleton {α : Type} {lt : α → α → Bool} {h : Heap α}
    (hI : heapInv lt h) (h1 : h.nelts = 1) :
    heap_remove lt h [] = { root := HTree.leaf, nelts := 0 } := by
  obtain ⟨hshape, _⟩ := hI
  rw [h1] at hshape
  cases hr : h.root with
  | leaf =>
    rw [hr] at hshape
    exact absurd hshape.symm (by simp [HTree.shape, cshape, insertAt, pathOfIdx,
      pathOfIdxAux])
  | node v l r =>
    rw [hr] at hshape
    have hcs : cshape 1 = HTree.node () HTree.leaf HTree.leaf := rfl
    rw [hcs] at hshape
    simp [HTree.shape] at hshape
    obtain ⟨hl, hr2⟩ := hshape
    have hleft : l = HTree.leaf := shape_leaf_iff.mp hl
    have hright : r = HTree.leaf := shape_leaf_iff.mp hr2
    have hh : h = { root := HTree.node v HTree.leaf HTree.leaf, nelts := 1 } := by
      cases h
      simp_all
    rw [hh]
    rfl

/-!
## The claims
-/

/-- C1: starting from heap_init, after every finite sequence of heap_insert
and heap_remove calls whose comparator is a strict weak order, the linked
nodes form the complete binary tree of nelts nodes (slot i of the
breadth-first numbering is occupied exactly when 1 ≤ i ≤ nelts), every
parent-child link is heap-ordered, and heap_min is absent exactly when the
heap is empty and otherwise returns an element no member sorts strictly
below under the comparator. -/
theorem claim_C1 {α : Type} (lt : α → α → Bool) (hswo : IsSWO lt)
    (ops : List (HeapOp α)) :
    heapInv lt (runOps lt ops) ∧
    (∀ i, 1 ≤ i →
      (occupied (runOps lt ops).root i = true ↔ i ≤ (runOps lt ops).nelts)) ∧
    (heap_min (runOps lt ops) = none ↔ (runOps lt ops).nelts = 0) ∧
    (∀ mv, heap_min (runOps lt ops) = some mv →
      ∀ y ∈ HTree.mset (runOps lt ops).root, lt y mv = false) := by
  have hI : heapInv lt (runOps lt ops) := runOps_inv hswo ops heap_init ⟨rfl, rfl⟩
  refine ⟨hI, fun i hi => occupied_inv hI i hi, heap_min_none_iff hI, ?_⟩
  intro mv hmv y hy
  exact heap_min_least hswo hI y hy mv hmv

/-- C1 at a concrete input: the strict order on Nat, three inserts followed
by removal of the root. -/
theorem claim_C1_witness :
    heapInv (fun a b : Nat => decide (a < b))
      (runOps (fun a b : Nat => decide (a < b))
        [HeapOp.insert 3, HeapOp.insert 1, HeapOp.insert 2, HeapOp.remove []]) ∧
    (∀ i, 1 ≤ i →
      (occupied (runOps (fun a b : Nat => decide (a < b))
          [HeapOp.insert 3, HeapOp.insert 1, HeapOp.insert 2,
            HeapOp.remove []]).root i = true ↔
        i ≤ (runOps (fun a b : Nat => decide (a < b))
          [HeapOp.insert 3, HeapOp.insert 1, HeapOp.insert 2,
            HeapOp.remove []]).nelts)) ∧
    (heap_min (runOps (fun a b : Nat => decide (a < b))
        [HeapOp.insert 3, HeapOp.insert 1, HeapOp.insert 2,
          HeapOp.remove []]) = none ↔
      (runOps (fun a b : Nat => decide (a < b))
        [HeapOp.insert 3, HeapOp.insert 1, HeapOp.insert 2,
          HeapOp.remove []]).nelts = 0) ∧
    (∀ mv, heap_min (runOps (fun a b : Nat => decide (a < b))
        [HeapOp.insert 3, HeapOp.insert 1, HeapOp.insert 2,
          HeapOp.remove []]) = some mv →
      ∀ y ∈ HTree.mset (runOps (fun a b : Nat => decide (a < b))
        [HeapOp.insert 3, HeapOp.insert 1, HeapOp.insert 2,
          HeapOp.remove []]).root, (fun a b : Nat => decide (a < b)) y mv = false) :=
  claim_C1 (fun a b : Nat => decide (a < b)) natLT_SWO
    [HeapOp.insert 3, HeapOp.insert 1, HeapOp.insert 2, HeapOp.remove []]

/-- C2: uv__run_timers rereads the heap minimum each iteration and returns
having done nothing more as soon as the minimum is absent or its deadline
is strictly in the future; a due minimum is processed by uv_timer_stop,
then uv_timer_again (which for a nonzero repeat reinserts the handle,
stamped with a fresh start_id drawn from the timer counter), and only then
is its callback invocation recorded; on the spec's scenario (deadlines
10, 10, 5 and 20 started in handle order 0, 1, 2, 3, loop clock at 20) the
firing order is handle 2, then 0 and 1 in start order, then 3. -/
theorem claim_C2 (st : LoopState) (id fuel : Nat) (hT : TInv st) :
    (heap_min st.loop.timer_heap = none → uv__run_timers fuel st = (st, [])) ∧
    (heap_min st.loop.timer_heap = some id →
      st.loop.time < (st.timers id).timeout →
      uv__run_timers fuel st = (st, [])) ∧
    (heap_min st.loop.timer_heap = some id →
      (st.timers id).timeout ≤ st.loop.time →
      uv__run_timers (fuel + 1) st =
        ((uv__run_timers fuel ((uv_timer_again (uv_timer_stop st id).2 id).2)).1,
          id :: (uv__run_timers fuel
            ((uv_timer_again (uv_timer_stop st id).2 id).2)).2) ∧
      ((st.timers id).repeat_ ≠ 0 →
        id ∈ HTree.mset
          ((uv_timer_again (uv_timer_stop st id).2 id).2).loop.timer_heap.root ∧
        (((uv_timer_again (uv_timer_stop st id).2 id).2).timers id).start_id =
          st.loop.timer_counter ∧
        TInv ((uv_timer_again (uv_timer_stop st id).2 id).2))) ∧
    (uv__run_timers 5 scenarioC2).2 = [2, 0, 1, 3] := by
  refine ⟨fun h => run_timers_empty h fuel,
    fun h hlt => run_timers_future h hlt fuel,
    fun h hdue => ⟨run_timers_step fuel h hdue, fun hr => ?_⟩, by rfl⟩
  have hmem : id ∈ HTree.mset st.loop.timer_heap.root := heap_min_mem h
  obtain ⟨hcb, hncl⟩ := hT.2.2.2 id hmem
  obtain ⟨c, hc⟩ : ∃ c, (st.timers id).timer_cb = some c := by
    cases hv : (st.timers id).timer_cb
    · exact absurd hv hcb
    · exact ⟨_, rfl⟩
  obtain ⟨h1, h2, _, _, _, h6⟩ := stop_again_fresh st id c hT hc hr hncl
  exact ⟨h1, h2, h6⟩

/-- C2 at a concrete input: the freshly initialised loop (its heap empty)
and any handle. -/
theorem claim_C2_witness :
    (heap_min initLoopState.loop.timer_heap = none →
      uv__run_timers 3 initLoopState = (initLoopState, [])) ∧
    (heap_min initLoopState.loop.timer_heap = some 0 →
      initLoopState.loop.time < (initLoopState.timers 0).timeout →
      uv__run_timers 3 initLoopState = (initLoopState, [])) ∧
    (heap_min initLoopState.loop.timer_heap = some 0 →
      (initLoopState.timers 0).timeout ≤ initLoopState.loop.time →
      uv__run_timers (3 + 1) initLoopState =
        ((uv__run_timers 3
            ((uv_timer_again (uv_timer_stop initLoopState 0).2 0).2)).1,
          0 :: (uv__run_timers 3
            ((uv_timer_again (uv_timer_stop initLoopState 0).2 0).2)).2) ∧
      ((initLoopState.timers 0).repeat_ ≠ 0 →
        0 ∈ HTree.mset ((uv_timer_again
          (uv_timer_stop initLoopState 0).2 0).2).loop.timer_heap.root ∧
        (((uv_timer_again (uv_timer_stop initLoopState 0).2 0).2).timers 0).start_id =
          initLoopState.loop.timer_counter ∧
        TInv ((uv_timer_again (uv_timer_stop initLoopState 0).2 0).2))) ∧
    (uv__run_timers 5 scenarioC2).2 = [2, 0, 1, 3] :=
  claim_C2 initLoopState 0 3 TInv_initLoopState

/-- C3: heap_insert derives the root-to-slot path of slot 1 + nelts by the
low-bit-and-halve loop (decodePath of heap_path equals pathOfIdx, the
binary digits below the leading one), that slot is the open slot keeping
the tree complete (a leaf of the current tree, and filling it yields the
complete shape of nelts + 1 nodes — the left-most open slot of the bottom
row), the new node is stored there with cleared children and sifted up by
swapping with its parent while the comparator orders it first, and nelts
grows by exactly one; the heap invariant is preserved and the multiset of
stored payloads gains exactly the new element. -/
theorem claim_C3 {α : Type} (lt : α → α → Bool) (hswo : IsSWO lt) (h : Heap α)
    (x : α) (hI : heapInv lt h) :
    decodePath (heap_path (1 + h.nelts)).1 (heap_path (1 + h.nelts)).2 =
      pathOfIdx (1 + h.nelts) ∧
    navigate h.root (pathOfIdx (1 + h.nelts)) = some HTree.leaf ∧
    heap_insert lt h x =
      { root := (siftUp lt (pathOfIdx (1 + h.nelts))
          (insertAt x (pathOfIdx (1 + h.nelts)) h.root)).1,
        nelts := h.nelts + 1 } ∧
    (heap_insert lt h x).nelts = h.nelts + 1 ∧
    HTree.shape (heap_insert lt h x).root = cshape (h.nelts + 1) ∧
    heapInv lt (heap_insert lt h x) ∧
    HTree.mset (heap_insert lt h x).root = x ::ₘ HTree.mset h.root := by
  obtain ⟨hInv, hn, hms⟩ := heap_insert_spec hswo h x hI
  exact ⟨heap_path_decode _, nav_open_slot hI, heap_insert_eq lt h x, hn,
    by rw [hInv.1, hn], hInv, hms⟩

/-- C3 at a concrete input: inserting 5 into the empty Nat heap. -/
theorem claim_C3_witness :
    decodePath (heap_path (1 + (heap_init : Heap Nat).nelts)).1
      (heap_path (1 + (heap_init : Heap Nat).nelts)).2 =
      pathOfIdx (1 + (heap_init : Heap Nat).nelts) ∧
    navigate (heap_init : Heap Nat).root
      (pathOfIdx (1 + (heap_init : Heap Nat).nelts)) = some HTree.leaf ∧
    heap_insert (fun a b : Nat => decide (a < b)) heap_init 5 =
      { root := (siftUp (fun a b : Nat => decide (a < b))
          (pathOfIdx (1 + (heap_init : Heap Nat).nelts))
          (insertAt 5 (pathOfIdx (1 + (heap_init : Heap Nat).nelts))
            (heap_init : Heap Nat).root)).1,
        nelts := (heap_init : Heap Nat).nelts + 1 } ∧
    (heap_insert (fun a b : Nat => decide (a < b)) heap_init 5).nelts =
      (heap_init : Heap Nat).nelts + 1 ∧
    HTree.shape (heap_insert (fun a b : Nat => decide (a < b))
      heap_init 5).root = cshape ((heap_init : Heap Nat).nelts + 1) ∧
    heapInv (fun a b : Nat => decide (a < b))
      (heap_insert (fun a b : Nat => decide (a < b)) heap_init 5) ∧
    HTree.mset (heap_insert (fun a b : Nat => decide (a < b))
      heap_init 5).root = 5 ::ₘ HTree.mset (heap_init : Heap Nat).root :=
  claim_C3 (fun a b : Nat => decide (a < b)) natLT_SWO heap_init 5 ⟨rfl, rfl⟩

/-- C4: heap_remove on an empty heap is a no-op; otherwise the path to the
tree's last node is derived from nelts by the same low-bit-and-halve
scheme (decodePath of heap_path equals pathOfIdx) and that node is
unlinked: if the removed position is exactly that last slot the removal is
complete (in particular removing the only node empties the heap, clearing
min to the leaf), and otherwise the unlinked last node is spliced into the
removed position and repaired by a sift-down pass followed by a sift-up
pass; nelts drops by exactly one, the heap invariant is preserved, and the
payload at the removed position leaves the stored multiset. -/
theorem claim_C4 {α : Type} (lt : α → α → Bool) (hswo : IsSWO lt) (h : Heap α)
    (pos : List Bool) (hI : heapInv lt h) :
    (h.nelts = 0 → heap_remove lt h pos = h) ∧
    decodePath (heap_path h.nelts).1 (heap_path h.nelts).2 = pathOfIdx h.nelts ∧
    (h.nelts ≠ 0 → pos = pathOfIdx h.nelts →
      heap_remove lt h pos =
        { root := (unlinkAt (pathOfIdx h.nelts) h.root).1,
          nelts := h.nelts - 1 }) ∧
    (h.nelts = 1 → heap_remove lt h [] = { root := HTree.leaf, nelts := 0 }) ∧
    (h.nelts ≠ 0 → pos ≠ pathOfIdx h.nelts → ∀ child,
      (unlinkAt (pathOfIdx h.nelts) h.root).2 = some child →
      heap_remove lt h pos =
        { root := (siftUp lt
            (siftDownAt lt pos
              (replaceAt child pos (unlinkAt (pathOfIdx h.nelts) h.root).1)).2
            (siftDownAt lt pos
              (replaceAt child pos (unlinkAt (pathOfIdx h.nelts) h.root).1)).1).1,
          nelts := h.nelts - 1 }) ∧
    (h.nelts ≠ 0 → (heap_remove lt h pos).nelts = h.nelts - 1) ∧
    heapInv lt (heap_remove lt h pos) ∧
    (∀ x xl xr, navigate h.root pos = some (HTree.node x xl xr) →
      x ::ₘ HTree.mset (heap_remove lt h pos).root = HTree.mset h.root) := by
  obtain ⟨hInv, hn, hms⟩ := heap_remove_spec hswo h pos hI
  refine ⟨fun h0 => by simp [heap_remove, h0], heap_path_decode _,
    fun hne hpos => heap_remove_eq_last lt h pos hne hpos,
    fun h1 => heap_remove_singleton hI h1,
    fun hne hpos child hchild =>
      heap_remove_eq_splice lt h pos child hne hpos hchild,
    fun _ => hn, hInv, hms⟩

/-- C4 at a concrete input: removing the root of a one-element Nat heap. -/
theorem claim_C4_witness :
    (wheap.nelts = 0 →
      heap_remove (fun a b : Nat => decide (a < b)) wheap [] = wheap) ∧
    decodePath (heap_path wheap.nelts).1 (heap_path wheap.nelts).2 =
      pathOfIdx wheap.nelts ∧
    (wheap.nelts ≠ 0 → ([] : List Bool) = pathOfIdx wheap.nelts →
      heap_remove (fun a b : Nat => decide (a < b)) wheap [] =
        { root := (unlinkAt (pathOfIdx wheap.nelts) wheap.root).1,
          nelts := wheap.nelts - 1 }) ∧
    (wheap.nelts = 1 →
      heap_remove (fun a b : Nat => decide (a < b)) wheap [] =
        { root := HTree.leaf, nelts := 0 }) ∧
    (wheap.nelts ≠ 0 → ([] : List Bool) ≠ pathOfIdx wheap.nelts → ∀ child,
      (unlinkAt (pathOfIdx wheap.nelts) wheap.root).2 = some child →
      heap_remove (fun a b : Nat => decide (a < b)) wheap [] =
        { root := (siftUp (fun a b : Nat => decide (a < b))
            (siftDownAt (fun a b : Nat => decide (a < b)) []
              (replaceAt child []
                (unlinkAt (pathOfIdx wheap.nelts) wheap.root).1)).2
            (siftDownAt (fun a b : Nat => decide (a < b)) []
              (replaceAt child []
                (unlinkAt (pathOfIdx wheap.nelts) wheap.root).1)).1).1,
          nelts := wheap.nelts - 1 }) ∧
    (wheap.nelts ≠ 0 →
      (heap_remove (fun a b : Nat => decide (a < b)) wheap []).nelts =
        wheap.nelts - 1) ∧
    heapInv (fun a b : Nat => decide (a < b))
      (heap_remove (fun a b : Nat => decide (a < b)) wheap []) ∧
    (∀ x xl xr, navigate wheap.root [] = some (HTree.node x xl xr) →
      x ::ₘ HTree.mset (heap_remove (fun a b : Nat => decide (a < b))
        wheap []).root = HTree.mset wheap.root) :=
  claim_C4 (fun a b : Nat => decide (a < b)) natLT_SWO wheap [] ⟨rfl, rfl⟩

/-- C5: timer_less_than a b holds exactly when a.timeout < b.timeout or the
timeouts are equal and a.start_id < b.start_id; it is irreflexive,
transitive and asymmetric, and any two timers with distinct
(timeout, start_id) keys are comparable, ties on deadline going to the
smaller start_id (the earlier-started timer). -/
theorem claim_C5 (a b c : uv_timer_t) :
    (timer_less_than a b = true ↔
      (a.timeout < b.timeout ∨
        (a.timeout = b.timeout ∧ a.start_id < b.start_id))) ∧
    timer_less_than a a = false ∧
    (timer_less_than a b = true → timer_less_than b c = true →
      timer_less_than a c = true) ∧
    (timer_less_than a b = true → timer_less_than b a = false) ∧
    ((a.timeout ≠ b.timeout ∨ a.start_id ≠ b.start_id) →
      timer_less_than a b = true ∨ timer_less_than b a = true) ∧
    (a.timeout = b.timeout → a.start_id < b.start_id →
      timer_less_than a b = true) := by
  have hab := timer_less_than_iff a b
  have hba := timer_less_than_iff b a
  have hbc := timer_less_than_iff b c
  have hac := timer_less_than_iff a c
  have haa := timer_less_than_iff a a
  refine ⟨hab, ?_, ?_, ?_, ?_, ?_⟩
  · cases hv : timer_less_than a a
    · rfl
    · have := haa.mp hv
      omega
  · intro h1 h2
    have ha := hab.mp h1
    have hb := hbc.mp h2
    exact hac.mpr (by omega)
  · intro h1
    cases hv : timer_less_than b a
    · rfl
    · have ha := hab.mp h1
      have hb := hba.mp hv
      omega
  · intro hne
    by_cases hv : timer_less_than a b = true
    · exact Or.inl hv
    · refine Or.inr (hba.mpr ?_)
      have h2 : ¬(a.timeout < b.timeout ∨
          (a.timeout = b.timeout ∧ a.start_id < b.start_id)) :=
        fun hx => hv (hab.mpr hx)
      omega
  · intro h1 h2
    exact hab.mpr (Or.inr ⟨h1, h2⟩)

/-- C6: uv_timer_start computes the deadline as loop.time + timeout in
wrapping uint64 arithmetic and, whenever the sum wraps below timeout,
stores UINT64_MAX instead; starting a timer with timeout = 2^64 - 1 at any
positive loop time stores exactly 2^64 - 1 (never a small wrapped value)
and still returns 0, so the overflow is not reported as an error. -/
theorem claim_C6 (st : LoopState) (handle cbv timeout rep : Nat)
    (hT : TInv st) (hncl : (st.timers handle).closing = false)
    (htime : st.loop.time < 2 ^ 64) :
    (uv_timer_start st handle (some cbv) timeout rep).1 = 0 ∧
    ((uv_timer_start st handle (some cbv) timeout rep).2.timers handle).timeout =
      (if (st.loop.time + timeout) % 2 ^ 64 < timeout then UINT64_MAX
       else (st.loop.time + timeout) % 2 ^ 64) ∧
    (0 < st.loop.time →
      (uv_timer_start st handle (some cbv) (2 ^ 64 - 1) rep).1 = 0 ∧
      ((uv_timer_start st handle (some cbv)
          (2 ^ 64 - 1) rep).2.timers handle).timeout = 2 ^ 64 - 1) := by
  obtain ⟨h1, hrec, _⟩ := uv_timer_start_spec st handle cbv timeout rep hT hncl
  refine ⟨h1, by rw [hrec], fun hpos => ?_⟩
  obtain ⟨h1m, hrecm, _⟩ :=
    uv_timer_start_spec st handle cbv (2 ^ 64 - 1) rep hT hncl
  refine ⟨h1m, ?_⟩
  have h64 : (2 : Nat) ^ 64 = 18446744073709551616 := by norm_num
  have hcond : (st.loop.time + (2 ^ 64 - 1)) % 2 ^ 64 < 2 ^ 64 - 1 := by
    omega
  rw [hrecm, if_pos hcond]
  rfl

/-- C6 at a concrete input: the initialised loop with its clock moved to
7. -/
theorem claim_C6_witness :
    (uv_timer_start (setLoopTime initLoopState 7) 0 (some 9) 10 0).1 = 0 ∧
    ((uv_timer_start (setLoopTime initLoopState 7) 0
        (some 9) 10 0).2.timers 0).timeout =
      (if ((setLoopTime initLoopState 7).loop.time + 10) % 2 ^ 64 < 10 then
        UINT64_MAX
       else ((setLoopTime initLoopState 7).loop.time + 10) % 2 ^ 64) ∧
    (0 < (setLoopTime initLoopState 7).loop.time →
      (uv_timer_start (setLoopTime initLoopState 7) 0
        (some 9) (2 ^ 64 - 1) 0).1 = 0 ∧
      ((uv_timer_start (setLoopTime initLoopState 7) 0
          (some 9) (2 ^ 64 - 1) 0).2.timers 0).timeout = 2 ^ 64 - 1) :=
  claim_C6 (setLoopTime initLoopState 7) 0 9 10 0
    (TInv_setLoopTime initLoopState 7 TInv_initLoopState) rfl (by decide)

/-- C7 counterexample: on closingState, handle 0 has a callback and a
nonzero repeat (50) but is mid-close; uv_timer_again returns success (0)
yet performs no restart at all — the state is returned unchanged, the
handle stays inactive and keeps its old deadline 100 instead of the
claimed loop.time + repeat = 57 — because the internal uv_timer_start
rejects a closing handle with UV_EINVAL and uv_timer_again discards that
result. -/
theorem claim_C7_counterexample :
    (closingState.timers 0).timer_cb = some 1 ∧
    (closingState.timers 0).repeat_ = 50 ∧
    closingState.loop.time + (closingState.timers 0).repeat_ = 57 ∧
    uv_timer_again closingState 0 = (0, closingState) ∧
    ((uv_timer_again closingState 0).2.timers 0).active = false ∧
    ((uv_timer_again closingState 0).2.timers 0).timeout = 100 := by
  exact ⟨rfl, rfl, rfl, rfl, rfl, rfl⟩

/-- C7 (amended: the restart behaviour additionally requires that the
handle is not closing): uv_timer_again returns UV_EINVAL with no state
mutated when the handle has no callback; it is a successful no-op when
repeat is zero; and when repeat is nonzero on a non-closing handle it
stops and restarts the handle with timeout = repeat and repeat = repeat,
so the new deadline is the current loop.time plus repeat (in clamped
uint64 arithmetic, with a fresh start_id) — rescheduling relative to now,
not to the original deadline. -/
theorem claim_C7 (st : LoopState) (handle : Nat) (hT : TInv st)
    (hncl : (st.timers handle).closing = false) :
    ((st.timers handle).timer_cb = none →
      uv_timer_again st handle = (UV_EINVAL, st)) ∧
    ((st.timers handle).timer_cb ≠ none → (st.timers handle).repeat_ = 0 →
      uv_timer_again st handle = (0, st)) ∧
    (∀ c, (st.timers handle).timer_cb = some c →
      (st.timers handle).repeat_ ≠ 0 →
      (uv_timer_again st handle).1 = 0 ∧
      (uv_timer_again st handle).2.timers handle =
        { timer_cb := some c,
          timeout := if (st.loop.time + (st.timers handle).repeat_) % 2 ^ 64 <
              (st.timers handle).repeat_ then UINT64_MAX
            else (st.loop.time + (st.timers handle).repeat_) % 2 ^ 64,
          repeat_ := (st.timers handle).repeat_,
          start_id := st.loop.timer_counter, active := true,
          closing := false } ∧
      (uv_timer_again st handle).2.loop.time = st.loop.time) := by
  refine ⟨fun hnone => uv_timer_again_none hnone, fun hcb hr0 => ?_,
    fun c hc hr => ?_⟩
  · obtain ⟨c, hc⟩ : ∃ c, (st.timers handle).timer_cb = some c := by
      cases hv : (st.timers handle).timer_cb
      · exact absurd hv hcb
      · exact ⟨_, rfl⟩
    exact uv_timer_again_zero hc hr0
  · obtain ⟨h1, hrec, _, _, htime, _, _⟩ :=
      uv_timer_again_pos_spec st handle c hT hc hr hncl
    exact ⟨h1, hrec, htime⟩

/-- C7 (amended) at a concrete input: the freshly initialised loop, whose
handle 0 is not closing. -/
theorem claim_C7_witness :
    ((initLoopState.timers 0).timer_cb = none →
      uv_timer_again initLoopState 0 = (UV_EINVAL, initLoopState)) ∧
    ((initLoopState.timers 0).timer_cb ≠ none →
      (initLoopState.timers 0).repeat_ = 0 →
      uv_timer_again initLoopState 0 = (0, initLoopState)) ∧
    (∀ c, (initLoopState.timers 0).timer_cb = some c →
      (initLoopState.timers 0).repeat_ ≠ 0 →
      (uv_timer_again initLoopState 0).1 = 0 ∧
      (uv_timer_again initLoopState 0).2.timers 0 =
        { timer_cb := some c,
          timeout := if (initLoopState.loop.time +
              (initLoopState.timers 0).repeat_) % 2 ^ 64 <
              (initLoopState.timers 0).repeat_ then UINT64_MAX
            else (initLoopState.loop.time +
              (initLoopState.timers 0).repeat_) % 2 ^ 64,
          repeat_ := (initLoopState.timers 0).repeat_,
          start_id := initLoopState.loop.timer_counter, active := true,
          closing := false } ∧
      (uv_timer_again initLoopState 0).2.loop.time =
        initLoopState.loop.time) :=
  claim_C7 initLoopState 0 TInv_initLoopState rfl

/-- C8: uv__next_timeout returns -1 (block indefinitely) when the timer
heap is empty; returns 0 when the minimum timer's deadline is at or before
loop.time; and otherwise returns the remaining delay, clamped (not
wrapped) to INT_MAX — so on a non-empty heap the result is always between
0 and INT_MAX. -/
theorem claim_C8 (st : LoopState) (id : Nat) :
    (heap_min st.loop.timer_heap = none → uv__next_timeout st = -1) ∧
    (heap_min st.loop.timer_heap = some id →
      (st.timers id).timeout ≤ st.loop.time → uv__next_timeout st = 0) ∧
    (heap_min st.loop.timer_heap = some id →
      st.loop.time < (st.timers id).timeout →
      uv__next_timeout st =
        (if Int.ofNat ((st.timers id).timeout - st.loop.time) > INT_MAX then
          INT_MAX
         else Int.ofNat ((st.timers id).timeout - st.loop.time))) ∧
    (heap_min st.loop.timer_heap = some id →
      0 ≤ uv__next_timeout st ∧ uv__next_timeout st ≤ INT_MAX) := by
  refine ⟨fun h => by simp [uv__next_timeout, h], fun h hle => ?_,
    fun h hlt => ?_, fun h => ?_⟩
  · simp only [uv__next_timeout, h]
    rw [if_pos hle]
  · simp only [uv__next_timeout, h]
    rw [if_neg (by omega)]
  · simp only [uv__next_timeout, h]
    by_cases hle : (st.timers id).timeout ≤ st.loop.time
    · rw [if_pos hle]
      unfold INT_MAX
      omega
    · rw [if_neg hle]
      by_cases hbig : Int.ofNat ((st.timers id).timeout - st.loop.time) > INT_MAX
      · rw [if_pos hbig]
        unfold INT_MAX
        omega
      · rw [if_neg hbig]
        unfold INT_MAX at hbig ⊢
        simp only [Int.ofNat_eq_natCast] at hbig ⊢
        omega

/-- C9: uv_timer_stop on an inactive handle returns success and changes
nothing at all (the state, hence the heap's min and nelts and every field
of every handle, is returned untouched); on an active handle it removes
exactly that handle's node from the heap (nelts drops by one, the handle
leaves the stored multiset), marks the handle inactive, leaves every
other handle untouched, and also returns success. -/
theorem claim_C9 (st : LoopState) (handle : Nat) (hT : TInv st) :
    ((st.timers handle).active = false →
      uv_timer_stop st handle = (0, st)) ∧
    ((st.timers handle).active = true →
      (uv_timer_stop st handle).1 = 0 ∧
      ((uv_timer_stop st handle).2.timers handle).active = false ∧
      handle ∉ HTree.mset (uv_timer_stop st handle).2.loop.timer_heap.root ∧
      handle ::ₘ HTree.mset (uv_timer_stop st handle).2.loop.timer_heap.root =
        HTree.mset st.loop.timer_heap.root ∧
      (uv_timer_stop st handle).2.loop.timer_heap.nelts =
        st.loop.timer_heap.nelts - 1 ∧
      (∀ id, id ≠ handle →
        (uv_timer_stop st handle).2.timers id = st.timers id) ∧
      TInv (uv_timer_stop st handle).2) := by
  refine ⟨fun hin => uv_timer_stop_inactive hin, fun hact => ?_⟩
  obtain ⟨h1, hrec, hothers, _, _, hms, hnot, hnelts, hTI⟩ :=
    uv_timer_stop_spec st handle hT hact
  refine ⟨h1, ?_, hnot, hms, hnelts, hothers, hTI⟩
  rw [hrec]
  rfl

/-- C9 at a concrete input: the freshly initialised loop, whose handle 0
is inactive. -/
theorem claim_C9_witness :
    ((initLoopState.timers 0).active = false →
      uv_timer_stop initLoopState 0 = (0, initLoopState)) ∧
    ((initLoopState.timers 0).active = true →
      (uv_timer_stop initLoopState 0).1 = 0 ∧
      ((uv_timer_stop initLoopState 0).2.timers 0).active = false ∧
      0 ∉ HTree.mset (uv_timer_stop initLoopState 0).2.loop.timer_heap.root ∧
      0 ::ₘ HTree.mset (uv_timer_stop initLoopState 0).2.loop.timer_heap.root =
        HTree.mset initLoopState.loop.timer_heap.root ∧
      (uv_timer_stop initLoopState 0).2.loop.timer_heap.nelts =
        initLoopState.loop.timer_heap.nelts - 1 ∧
      (∀ id, id ≠ 0 →
        (uv_timer_stop initLoopState 0).2.timers id =
          initLoopState.timers id) ∧
      TInv (uv_timer_stop initLoopState 0).2) :=
  claim_C9 initLoopState 0 TInv_initLoopState

/-- C10: the comparator keys (timeout and start_id) are never written
while a node is enqueued: uv_timer_set_repeat writes only the repeat field
of its handle (the loop, with its heap, and every other handle are
untouched); uv_timer_start, uv_timer_stop and uv_timer_again leave every
other handle's record untouched; and uv_timer_start on an active handle
reduces to a start on the state in which the internal uv_timer_stop has
already removed the handle's node from the heap, so the key assignment
happens only while the handle is outside the heap. -/
theorem claim_C10 (st : LoopState) (handle rep cbv t r : Nat) (hT : TInv st)
    (hncl : (st.timers handle).closing = false) :
    ((uv_timer_set_repeat st handle rep).loop = st.loop ∧
      (uv_timer_set_repeat st handle rep).timers handle =
        { st.timers handle with repeat_ := rep } ∧
      (∀ id, id ≠ handle →
        (uv_timer_set_repeat st handle rep).timers id = st.timers id)) ∧
    (∀ id, id ≠ handle →
      (uv_timer_start st handle (some cbv) t r).2.timers id = st.timers id) ∧
    (∀ id, id ≠ handle →
      (uv_timer_stop st handle).2.timers id = st.timers id) ∧
    (∀ id, id ≠ handle →
      (uv_timer_again st handle).2.timers id = st.timers id) ∧
    ((st.timers handle).active = true →
      uv_timer_start st handle (some cbv) t r =
        uv_timer_start (uv_timer_stop st handle).2 handle (some cbv) t r ∧
      handle ∉ HTree.mset (uv_timer_stop st handle).2.loop.timer_heap.root) := by
  refine ⟨⟨rfl, ?_, fun id hid => ?_⟩,
    fun id hid => uv_timer_start_frame st handle (some cbv) t r id hid,
    fun id hid => uv_timer_stop_frame st handle id hid,
    fun id hid => uv_timer_again_frame st handle id hid,
    fun hact => ⟨uv_timer_start_restart st handle cbv t r hT hncl hact,
      (uv_timer_stop_spec st handle hT hact).2.2.2.2.2.2.1⟩⟩
  · simp [uv_timer_set_repeat, setTimer]
  · simp [uv_timer_set_repeat, setTimer, hid]

/-- C10 at a concrete input: the freshly initialised loop. -/
theorem claim_C10_witness :
    ((uv_timer_set_repeat initLoopState 0 4).loop = initLoopState.loop ∧
      (uv_timer_set_repeat initLoopState 0 4).timers 0 =
        { initLoopState.timers 0 with repeat_ := 4 } ∧
      (∀ id, id ≠ 0 →
        (uv_timer_set_repeat initLoopState 0 4).timers id =
          initLoopState.timers id)) ∧
    (∀ id, id ≠ 0 →
      (uv_timer_start initLoopState 0 (some 9) 10 4).2.timers id =
        initLoopState.timers id) ∧
    (∀ id, id ≠ 0 →
      (uv_timer_stop initLoopState 0).2.timers id = initLoopState.timers id) ∧
    (∀ id, id ≠ 0 →
      (uv_timer_again initLoopState 0).2.timers id =
        initLoopState.timers id) ∧
    ((initLoopState.timers 0).active = true →
      uv_timer_start initLoopState 0 (some 9) 10 4 =
        uv_timer_start (uv_timer_stop initLoopState 0).2 0 (some 9) 10 4 ∧
      0 ∉ HTree.mset
        (uv_timer_stop initLoopState 0).2.loop.timer_heap.root) :=
  claim_C10 initLoopState 0 4 9 10 4 TInv_initLoopState rfl
